import Mathlib

/-!
Verification development for the sensitive-data-protector repository.

The repository masks personally identifiable information (PII) in free text
before it is sent to an external model, and restores it afterwards.  Texts are
modelled as lists of characters (`Str`).  The two maskers
(`privacy_gateway.PrivacyGateway`, the regex masker, and
`local_llm_gateway.LocalLLMGateway`, the model-assisted masker) are embedded as
pure functions.  The regex scans of the pattern masker are embedded by
hand-translating each of the five patterns into an explicit matcher with
Python `re` semantics (leftmost scan, greedy with the backtracking the concrete
patterns allow, ASCII word/space classes), and `re.sub` is embedded as a
left-to-right scanner that records a trace of literal runs and replacements.
-/

/-- Characters of a text, as a plain list. -/
abbrev Str := List Char

/-- ASCII word character: the model of the regex class `\w` used by `\b`. -/
def wordChar (c : Char) : Bool := c.isAlphanum || c = '_'

/-- Whitespace recognised by the regex class `\s` (ASCII model). -/
def spaceChar (c : Char) : Bool :=
  c = ' ' || c = '\t' || c = '\n' || c = '\r' || c = '\x0b' || c = '\x0c'

/-- Word-character test on an optional character; text ends count as non-word. -/
def wordOpt : Option Char → Bool
  | none => false
  | some c => wordChar c

/-- Word boundary (`\b`) between a previous character and a next character. -/
def boundaryAt (prev next : Option Char) : Bool := wordOpt prev != wordOpt next

/-- Decimal digits of a natural number, with explicit fuel. -/
def natStrAux : Nat → Nat → Str
  | 0, _ => []
  | fuel+1, n =>
    if n < 10 then [Nat.digitChar n]
    else natStrAux fuel (n / 10) ++ [Nat.digitChar (n % 10)]

/-- Decimal representation of a natural number as a character list. -/
def natStr (n : Nat) : Str := natStrAux (n + 1) n

/-- Does `k` occur at the start of `t`? -/
def startsWithStr : Str → Str → Bool
  | [], _ => true
  | _ :: _, [] => false
  | a :: ks, c :: ts => a = c && startsWithStr ks ts

/-- Does `k` occur anywhere in `t` (the Python `in` test on strings)? -/
def occursIn (k : Str) : Str → Bool
  | [] => k.isEmpty
  | c :: ts => startsWithStr k (c :: ts) || occursIn k ts

/-- Fuelled worker for `replaceAll`. -/
def replaceAllAux (k v : Str) : Nat → Str → Str
  | 0, t => t
  | _+1, [] => []
  | fuel+1, c :: ts =>
    if startsWithStr k (c :: ts) && !k.isEmpty then
      v ++ replaceAllAux k v fuel ((c :: ts).drop k.length)
    else
      c :: replaceAllAux k v fuel ts

/-- Python `str.replace`: replace every (leftmost, non-overlapping) occurrence
of `k` in `t` by `v`.  (For empty `k` we return `t` unchanged; the repository
only ever replaces non-empty placeholder keys and values.) -/
def replaceAll (k v t : Str) : Str := replaceAllAux k v t.length t

/- Basic lemmas about the string machinery. -/

theorem startsWithStr_nil (t : Str) : startsWithStr [] t = true := rfl

theorem startsWithStr_iff_append (k t : Str) :
    startsWithStr k t = true ↔ ∃ u, t = k ++ u := by
  induction k generalizing t with
  | nil => simp [startsWithStr]
  | cons a ks ih =>
    cases t with
    | nil =>
      simp [startsWithStr]
    | cons c ts =>
      simp only [startsWithStr, Bool.and_eq_true, decide_eq_true_eq, ih]
      constructor
      · rintro ⟨rfl, u, rfl⟩; exact ⟨u, rfl⟩
      · rintro ⟨u, h⟩
        cases h
        exact ⟨rfl, u, rfl⟩

theorem occursIn_iff (k t : Str) :
    occursIn k t = true ↔ ∃ a b, t = a ++ k ++ b := by
  induction t with
  | nil =>
    simp only [occursIn, List.isEmpty_iff]
    constructor
    · rintro rfl; exact ⟨[], [], rfl⟩
    · rintro ⟨a, b, h⟩
      rcases List.append_eq_nil.mp (List.append_eq_nil.mp h.symm |>.1) with ⟨-, h2⟩
      exact h2
  | cons c ts ih =>
    simp only [occursIn, Bool.or_eq_true, startsWithStr_iff_append, ih]
    constructor
    · rintro (⟨u, h⟩ | ⟨a, b, h⟩)
      · exact ⟨[], u, by simpa using h⟩
      · exact ⟨c :: a, b, by simp [h]⟩
    · rintro ⟨a, b, h⟩
      cases a with
      | nil => exact Or.inl ⟨b, by simpa using h⟩
      | cons a0 as =>
        simp only [List.cons_append, List.cons.injEq] at h
        exact Or.inr ⟨as, b, by simp [h.2]⟩

theorem replaceAllAux_nil (k v : Str) (fuel : Nat) : replaceAllAux k v fuel [] = [] := by
  cases fuel <;> rfl

theorem nonempty_length_of_guard {k : Str} {t : Str}
    (hs : (startsWithStr k t && !k.isEmpty) = true) : 1 ≤ k.length := by
  cases k with
  | nil => simp [List.isEmpty] at hs
  | cons _ _ => simp

theorem replaceAllAux_fuel (k v : Str) (t : Str) :
    ∀ fuel, t.length ≤ fuel → replaceAllAux k v fuel t = replaceAllAux k v t.length t := by
  have main : ∀ n, ∀ t : Str, t.length ≤ n → ∀ f1 f2, t.length ≤ f1 → t.length ≤ f2 →
      replaceAllAux k v f1 t = replaceAllAux k v f2 t := by
    intro n
    induction n with
    | zero =>
      intro t ht f1 f2 _ _
      have : t = [] := List.eq_nil_of_length_eq_zero (Nat.le_zero.mp ht)
      subst this
      simp [replaceAllAux_nil]
    | succ n ih =>
      intro t ht f1 f2 h1 h2
      cases t with
      | nil => simp [replaceAllAux_nil]
      | cons c ts =>
        cases f1 with
        | zero => simp at h1
        | succ f1 =>
          cases f2 with
          | zero => simp at h2
          | succ f2 =>
            simp only [replaceAllAux]
            by_cases hs : (startsWithStr k (c :: ts) && !k.isEmpty) = true
            · have hklen : 1 ≤ k.length := nonempty_length_of_guard hs
              simp only [hs, if_true]
              have hdlen : ((c :: ts).drop k.length).length = (c :: ts).length - k.length :=
                List.length_drop k.length (c :: ts)
              simp only [List.length_cons] at ht h1 h2 hdlen
              have hlen : ((c :: ts).drop k.length).length ≤ n := by omega
              have hd : ((c :: ts).drop k.length).length ≤ f1 := by omega
              have hd2 : ((c :: ts).drop k.length).length ≤ f2 := by omega
              rw [ih _ hlen f1 f2 hd hd2]
            · rw [if_neg hs, if_neg hs]
              simp only [List.length_cons] at ht h1 h2
              have hlen : ts.length ≤ n := by omega
              have hd : ts.length ≤ f1 := by omega
              have hd2 : ts.length ≤ f2 := by omega
              rw [ih _ hlen f1 f2 hd hd2]
  intro fuel hf
  exact main t.length t le_rfl fuel t.length hf le_rfl

theorem replaceAll_nil (k v : Str) : replaceAll k v [] = [] := rfl

theorem replaceAll_cons (k v : Str) (c : Char) (ts : Str) :
    replaceAll k v (c :: ts) =
      if startsWithStr k (c :: ts) && !k.isEmpty then
        v ++ replaceAll k v ((c :: ts).drop k.length)
      else
        c :: replaceAll k v ts := by
  show replaceAllAux k v (c :: ts).length (c :: ts) = _
  simp only [List.length_cons, replaceAllAux]
  by_cases hs : (startsWithStr k (c :: ts) && !k.isEmpty) = true
  · have hklen : 1 ≤ k.length := nonempty_length_of_guard hs
    simp only [hs, if_true]
    congr 1
    have hdlen : ((c :: ts).drop k.length).length = (c :: ts).length - k.length :=
      List.length_drop k.length (c :: ts)
    simp only [List.length_cons] at hdlen
    have hd : ((c :: ts).drop k.length).length ≤ ts.length := by omega
    exact replaceAllAux_fuel k v _ _ hd
  · rw [if_neg hs, if_neg hs]
    rfl

/-! ### Character classes and elementary consumers for the regex patterns -/

/-- The class `[-\s]` separating digit groups in the credit-card and SSN patterns. -/
def sepDash (c : Char) : Bool := c = '-' || spaceChar c

/-- The class `[-.\s]` separating digit groups in the phone pattern. -/
def phoneSepChar (c : Char) : Bool := c = '-' || c = '.' || spaceChar c

/-- Consume exactly `n` digits (`\d{n}`), returning them and the rest. -/
def grabDigits : Nat → Str → Option (Str × Str)
  | 0, s => some ([], s)
  | _+1, [] => none
  | n+1, c :: s =>
    if c.isDigit then (grabDigits n s).map (fun p => (c :: p.1, p.2)) else none

/-- Greedily consume an optional single character of class `cls` (`X?`). -/
def grabOpt (cls : Char → Bool) : Str → Str × Str
  | [] => ([], [])
  | c :: s => if cls c then ([c], s) else ([], c :: s)

/-! ### Matchers, one per regex pattern of `privacy_gateway.py`.

A matcher takes the character preceding the current position (for `\b`) and
the remaining text, and returns `(keep, stored, rest)` on success: `keep` is
the part of the match that the substitution reproduces verbatim (`group(1)`
of the name patterns, empty otherwise), `stored` is the part recorded in the
mapping, and `rest` is the text after the match.  Greedy optional pieces are
deterministic here because the adjacent character classes are disjoint, which
makes the explicit parse below equivalent to the backtracking engine. -/

/-- Body of `\b(\d{3}[-\s]?\d{2}[-\s]?\d{4})\b` after the leading `\b`. -/
def ssnBody (s : Str) : Option (Str × Str) :=
  match grabDigits 3 s with
  | none => none
  | some (a, s1) =>
    let b := grabOpt sepDash s1
    match grabDigits 2 b.2 with
    | none => none
    | some (c2, s3) =>
      let d := grabOpt sepDash s3
      match grabDigits 4 d.2 with
      | none => none
      | some (e, s5) =>
        if wordOpt s5.head? then none
        else some (a ++ b.1 ++ c2 ++ d.1 ++ e, s5)

/-- Body of the phone pattern `\b(\(?\d{3}\)?[-.\s]?\d{3}[-.\s]?\d{4})\b`. -/
def phoneBody (s : Str) : Option (Str × Str) :=
  let p1 := grabOpt (fun c => c = '(') s
  match grabDigits 3 p1.2 with
  | none => none
  | some (a, s2) =>
    let p2 := grabOpt (fun c => c = ')') s2
    let b := grabOpt phoneSepChar p2.2
    match grabDigits 3 b.2 with
    | none => none
    | some (c3, s5) =>
      let d := grabOpt phoneSepChar s5
      match grabDigits 4 d.2 with
      | none => none
      | some (e, s7) =>
        if wordOpt s7.head? then none
        else some (p1.1 ++ a ++ p2.1 ++ b.1 ++ c3 ++ d.1 ++ e, s7)

/-- Body of the credit-card pattern `\b(\d{4}[-\s]?\d{4}[-\s]?\d{4}[-\s]?\d{1,7})\b`.
The final `\d{1,7}\b` succeeds exactly when the remaining digit run has length
1 to 7 and is followed by a non-word position (shorter greedy choices always
leave a digit, i.e. a word character, after the match). -/
def creditBody (s : Str) : Option (Str × Str) :=
  match grabDigits 4 s with
  | none => none
  | some (a, s1) =>
    let b := grabOpt sepDash s1
    match grabDigits 4 b.2 with
    | none => none
    | some (c2, s3) =>
      let d := grabOpt sepDash s3
      match grabDigits 4 d.2 with
      | none => none
      | some (e, s5) =>
        let f := grabOpt sepDash s5
        let run := f.2.takeWhile Char.isDigit
        let rest := f.2.drop run.length
        if 1 ≤ run.length ∧ run.length ≤ 7 ∧ wordOpt rest.head? = false then
          some (a ++ b.1 ++ c2 ++ d.1 ++ e ++ f.1 ++ run, rest)
        else none

/-- The email local-part class `[a-zA-Z0-9._%+-]`. -/
def emailLocalChar (c : Char) : Bool :=
  c.isAlphanum || c = '.' || c = '_' || c = '%' || c = '+' || c = '-'

/-- The email domain class `[a-zA-Z0-9.-]` (no underscore). -/
def emailDomChar (c : Char) : Bool := c.isAlphanum || c = '.' || c = '-'

/-- Candidate positions for the `\.` of the email pattern inside the maximal
domain-class run `R`: indices of dots with a non-empty domain before them,
tried from the largest (the backtracking order of `[a-zA-Z0-9.-]+`). -/
def dotIdxs (R : Str) : List Nat :=
  ((List.range R.length).filter (fun i => decide (1 ≤ i) && decide (R.getD i ' ' = '.'))).reverse

/-- Try the dot positions in order; for each, the TLD `[a-zA-Z]{2,}` is the
maximal letter run after the dot (shorter greedy choices leave a letter, a
word character, after the match, so only the maximal run can pass `\b`). -/
def emailTryDots : List Nat → Str → Str → Option (Str × Str)
  | [], _, _ => none
  | d :: ds, R, afterR =>
    let tail := R.drop (d + 1)
    let run := tail.takeWhile Char.isAlpha
    let rem := tail.drop run.length ++ afterR
    if 2 ≤ run.length ∧ wordOpt rem.head? = false then
      some (R.take (d + 1) ++ run, rem)
    else emailTryDots ds R afterR

/-- Body of `\b([a-zA-Z0-9._%+-]+@[a-zA-Z0-9.-]+\.[a-zA-Z]{2,})\b`. -/
def emailBody (s : Str) : Option (Str × Str) :=
  let loc := s.takeWhile emailLocalChar
  if loc.isEmpty then none
  else
    match s.drop loc.length with
    | '@' :: s2 =>
      let R := s2.takeWhile emailDomChar
      let afterR := s2.drop R.length
      match emailTryDots (dotIdxs R) R afterR with
      | none => none
      | some (dom, rest) => some (loc ++ '@' :: dom, rest)
    | _ => none

/-- Wrap a pattern body with the leading `\b` check of the pattern. -/
def withBound (body : Str → Option (Str × Str)) :
    Option Char → Str → Option (Str × Str × Str)
  | _, [] => none
  | prev, c :: s =>
    if boundaryAt prev (some c) then
      (body (c :: s)).map (fun p => ([], p.1, p.2))
    else none

def ssnMatcher : Option Char → Str → Option (Str × Str × Str) := withBound ssnBody
def phoneMatcher : Option Char → Str → Option (Str × Str × Str) := withBound phoneBody
def creditMatcher : Option Char → Str → Option (Str × Str × Str) := withBound creditBody
def emailMatcher : Option Char → Str → Option (Str × Str × Str) := withBound emailBody

/-! ### The four name patterns of `_mask_names` (applied as separate scans). -/

/-- The apostrophe character. -/
def apos : Char := Char.ofNat 39

/-- Case-insensitive literal match (pattern given in lower case), returning the
consumed original characters and the rest. -/
def ciMatch : Str → Str → Option (Str × Str)
  | [], s => some ([], s)
  | _ :: _, [] => none
  | p :: ps, c :: s =>
    if c.toLower = p then (ciMatch ps s).map (fun q => (c :: q.1, q.2)) else none

/-- Leading whitespace run and the rest. -/
def wsGrab (s : Str) : Str × Str :=
  let w := s.takeWhile spaceChar
  (w, s.drop w.length)

/-- The captured name `[A-Z][a-z]+(?:\s+[A-Z][a-z]+)?` under `(?i)`: a letter
run of length at least two, optionally followed by whitespace and a second
such run (greedy). -/
def nameGroup (s : Str) : Option (Str × Str) :=
  let r := s.takeWhile Char.isAlpha
  if 2 ≤ r.length then
    let s1 := s.drop r.length
    let w := s1.takeWhile spaceChar
    if 1 ≤ w.length then
      let s2 := s1.drop w.length
      let r2 := s2.takeWhile Char.isAlpha
      if 2 ≤ r2.length then some (r ++ w ++ r2, s2.drop r2.length)
      else some (r, s1)
    else some (r, s1)
  else none

/-- The lead-in `I'?m` (case-insensitive). -/
def leadinIm : Str → Option (Str × Str)
  | c :: s1 =>
    if c.toLower = 'i' then
      match s1 with
      | c2 :: s2 =>
        if c2 = apos then
          match s2 with
          | c3 :: s3 => if c3.toLower = 'm' then some ([c, c2, c3], s3) else none
          | [] => none
        else if c2.toLower = 'm' then some ([c, c2], s2) else none
      | [] => none
    else none
  | [] => none

/-- Generic name-pattern matcher: lead-in, whitespace (`\s+` when `wsReq`,
`\s*` otherwise), then the captured name.  The lead-in and whitespace are the
preserved `group(1)`; the name is the replaced `group(2)`. -/
def nameMatcher (leadin : Str → Option (Str × Str)) (wsReq : Bool) :
    Option Char → Str → Option (Str × Str × Str) :=
  fun _ s =>
    match leadin s with
    | none => none
    | some (li, s1) =>
      let w := wsGrab s1
      if wsReq && w.1.isEmpty then none
      else
        match nameGroup w.2 with
        | none => none
        | some (g, rest) => some (li ++ w.1, g, rest)

def nm1Matcher : Option Char → Str → Option (Str × Str × Str) :=
  nameMatcher (ciMatch ("my name is".toList)) true

def nm2Matcher : Option Char → Str → Option (Str × Str × Str) :=
  nameMatcher leadinIm true

def nm3Matcher : Option Char → Str → Option (Str × Str × Str) :=
  nameMatcher (ciMatch ("i am".toList)) true

def nm4Matcher : Option Char → Str → Option (Str × Str × Str) :=
  nameMatcher (ciMatch ("name:".toList)) false

/-! ### The `re.sub` scanner.

`scanAux` embeds `re.sub(pattern, replace, text)`: it scans the input left to
right, tries the matcher at every position, and on a match consults `mk`
(the embedded `replace` callback) with the scanned input prefix (the Python
`text[:match.start()]`) and the stored group; `mk` either produces a
placeholder (recording it in the state) or declines (the callback returned the
original text).  The scan resumes after the match either way, exactly as
`re.sub` does.  The result is a trace of chunks whose concatenated outputs
form the substituted text. -/

inductive Chunk where
  | lit : Str → Chunk
  | rep : Str → Str → Str → Chunk
  | skipm : Str → Str → Chunk
deriving DecidableEq, Repr

/-- Contribution of a chunk to the output text. -/
def chunkOut : Chunk → Str
  | .lit s => s
  | .rep kp key _ => kp ++ key
  | .skipm kp o => kp ++ o

/-- Contribution of a chunk to the input text. -/
def chunkIn : Chunk → Str
  | .lit s => s
  | .rep kp _ o => kp ++ o
  | .skipm kp o => kp ++ o

def flattenOut (cs : List Chunk) : Str := (cs.map chunkOut).flatten

def flattenIn (cs : List Chunk) : Str := (cs.map chunkIn).flatten

def scanAux {σ : Type} (m : Option Char → Str → Option (Str × Str × Str))
    (mk : σ → Str → Str → Option Str × σ) :
    Nat → Option Char → Str → Str → σ → List Chunk × σ
  | 0, _, _, s, st => (if s.isEmpty then [] else [.lit s], st)
  | fuel+1, prev, pre, s, st =>
    match s with
    | [] => ([], st)
    | c :: s' =>
      match m prev (c :: s') with
      | some (kp, stored, rest) =>
        let matched := kp ++ stored
        let nprev : Option Char := matched.getLast? <|> some c
        match mk st pre stored with
        | (some key, st1) =>
          let r := scanAux m mk fuel nprev (pre ++ matched) rest st1
          (.rep kp key stored :: r.1, r.2)
        | (none, st1) =>
          let r := scanAux m mk fuel nprev (pre ++ matched) rest st1
          (.skipm kp stored :: r.1, r.2)
      | none =>
        let r := scanAux m mk fuel (some c) (pre ++ [c]) s' st
        (.lit [c] :: r.1, r.2)

/-- One `re.sub` pass over `t` from scratch, with enough fuel. -/
def runScan {σ : Type} (m : Option Char → Str → Option (Str × Str × Str))
    (mk : σ → Str → Str → Option Str × σ) (t : Str) (st : σ) : List Chunk × σ :=
  scanAux m mk (t.length + 1) none [] t st

/-! ### The pattern-based gateway `PrivacyGateway`. -/

/-- Session state: the five per-category counters and the mapping. -/
structure PGState where
  ccN : Nat
  ssnN : Nat
  emN : Nat
  phN : Nat
  nmN : Nat
  mapping : List (Str × Str)
deriving DecidableEq, Repr

/-- The state produced by `reset`. -/
def pgInit : PGState := ⟨0, 0, 0, 0, 0, []⟩

/-- Placeholder text `[<CAT>_<n>]` built by `_create_placeholder`. -/
def mkKey (cat : Str) (n : Nat) : Str := '[' :: (cat ++ '_' :: (natStr n ++ [']']))

def ccCat : Str := "CREDIT_CARD".toList
def ssnCat : Str := "SSN".toList
def emCat : Str := "EMAIL".toList
def phCat : Str := "PHONE".toList
def nmCat : Str := "NAME".toList

/-- The `replace` callback of `_mask_credit_cards`. -/
def mkCC (st : PGState) (_pre stored : Str) : Option Str × PGState :=
  let n := st.ccN + 1
  let key := mkKey ccCat n
  (some key, { st with ccN := n, mapping := st.mapping ++ [(key, stored)] })

/-- The `replace` callback of `_mask_ssn`: a match is only recorded when the
digits left after removing `[-\s]` characters number exactly nine. -/
def mkSSN (st : PGState) (_pre stored : Str) : Option Str × PGState :=
  if (stored.filter (fun c => !sepDash c)).length = 9 then
    let n := st.ssnN + 1
    let key := mkKey ssnCat n
    (some key, { st with ssnN := n, mapping := st.mapping ++ [(key, stored)] })
  else (none, st)

/-- The `replace` callback of `_mask_emails`. -/
def mkEM (st : PGState) (_pre stored : Str) : Option Str × PGState :=
  let n := st.emN + 1
  let key := mkKey emCat n
  (some key, { st with emN := n, mapping := st.mapping ++ [(key, stored)] })

/-- The literal `[SSN_` tested by the phone heuristic. -/
def ssnTag : Str := "[SSN_".toList

/-- The `replace` callback of `_mask_phone_numbers`: the match is skipped when
the literal `[SSN_` occurs in the text before the match start. -/
def mkPH (st : PGState) (pre stored : Str) : Option Str × PGState :=
  if occursIn ssnTag pre then (none, st)
  else
    let n := st.phN + 1
    let key := mkKey phCat n
    (some key, { st with phN := n, mapping := st.mapping ++ [(key, stored)] })

/-- The `replace` callback shared by the four name patterns. -/
def mkNM (st : PGState) (_pre stored : Str) : Option Str × PGState :=
  let n := st.nmN + 1
  let key := mkKey nmCat n
  (some key, { st with nmN := n, mapping := st.mapping ++ [(key, stored)] })

/-- One masking pass (`re.sub`) as text-to-text, threading the state. -/
def stageRun (m : Option Char → Str → Option (Str × Str × Str))
    (mk : PGState → Str → Str → Option Str × PGState) (t : Str) (st : PGState) :
    Str × PGState :=
  let r := runScan m mk t st
  (flattenOut r.1, r.2)

/-- The scans of `PrivacyGateway.mask` applied in order from the reset state:
credit card, SSN, email, phone, then the four name patterns. -/
def pgRun1 (t : Str) : Str × PGState := stageRun creditMatcher mkCC t pgInit

def pgRun2 (t : Str) : Str × PGState := stageRun ssnMatcher mkSSN (pgRun1 t).1 (pgRun1 t).2

def pgRun3 (t : Str) : Str × PGState := stageRun emailMatcher mkEM (pgRun2 t).1 (pgRun2 t).2

def pgRun4 (t : Str) : Str × PGState := stageRun phoneMatcher mkPH (pgRun3 t).1 (pgRun3 t).2

def pgRun5 (t : Str) : Str × PGState := stageRun nm1Matcher mkNM (pgRun4 t).1 (pgRun4 t).2

def pgRun6 (t : Str) : Str × PGState := stageRun nm2Matcher mkNM (pgRun5 t).1 (pgRun5 t).2

def pgRun7 (t : Str) : Str × PGState := stageRun nm3Matcher mkNM (pgRun6 t).1 (pgRun6 t).2

def pgRun8 (t : Str) : Str × PGState := stageRun nm4Matcher mkNM (pgRun7 t).1 (pgRun7 t).2

/-- `PrivacyGateway.mask`: reset, then the eight scans in order.  Returns the
masked text, the mapping snapshot, and the final state. -/
def pgMask (st0 : PGState) (t : Str) : Str × List (Str × Str) × PGState :=
  let _ := st0
  ((pgRun8 t).1, (pgRun8 t).2.mapping, (pgRun8 t).2)

/-- `unmask` (identical in both gateways): for each mapping entry in order,
replace every occurrence of the placeholder by the original value. -/
def unmaskSub (mapping : List (Str × Str)) (t : Str) : Str :=
  mapping.foldl (fun acc p => replaceAll p.1 p.2 acc) t

/-! ### The model-assisted gateway `LocalLLMGateway`. -/

/-- Python `str.upper`, ASCII model. -/
def upperStr (s : Str) : Str := s.map Char.toUpper

/-- Python dict assignment `mapping[key] = value` on an association list: an
existing key keeps its position and gets the new value, a new key is
appended. -/
def insertPair {β : Type} (m : List (Str × β)) (k : Str) (v : β) : List (Str × β) :=
  if m.any (fun p => p.1 = k) then m.map (fun p => if p.1 = k then (k, v) else p)
  else m ++ [(k, v)]

/-- One iteration of the inner loop of `LocalLLMGateway.mask`: a non-empty
value still present in the text gets the next placeholder for the category
and all its occurrences are replaced; otherwise nothing changes. -/
def llmStep (cat : Str) (acc : Str × Nat × List (Str × Str)) (v : Str) :
    Str × Nat × List (Str × Str) :=
  if v ≠ [] ∧ occursIn v acc.1 then
    let n := acc.2.1 + 1
    let key := mkKey (upperStr cat) n
    (replaceAll v key acc.1, n, insertPair acc.2.2 key v)
  else acc

/-- One iteration of the outer loop of `LocalLLMGateway.mask` over a
detection-result category. -/
def llmCat (acc : Str × List (Str × Str)) (entry : Str × List Str) :
    Str × List (Str × Str) :=
  if entry.2.isEmpty then acc
  else
    let r := entry.2.foldl (llmStep entry.1) (acc.1, 0, acc.2)
    (r.1, r.2.2)

/-- `LocalLLMGateway.mask` given a pre-computed detection result: reset the
session mapping, then process categories in order. -/
def llmMask (m0 : List (Str × Str)) (det : List (Str × List Str)) (t : Str) :
    Str × List (Str × Str) :=
  let _ := m0
  det.foldl llmCat (t, [])

/-! ### `LocalLLMGateway.detect_pii`: tolerant JSON extraction.

`detect_pii` runs `re.search` with the pattern `\{[\s\S]*\}` on the raw model
reply and feeds the matched span to `json.loads`; on no match or a parse
failure it returns the empty dict.  The greedy `[\s\S]*` makes the span run
from the first opening brace to the last closing brace of the reply. -/

/-- JSON values; numbers keep their lexeme (no float arithmetic is performed
anywhere in the repository on parsed numbers). -/
inductive Json where
  | null : Json
  | bool : Bool → Json
  | num : Str → Json
  | str : Str → Json
  | arr : List Json → Json
  | obj : List (Str × Json) → Json

def obrace : Char := Char.ofNat 123
def cbrace : Char := Char.ofNat 125
def dquote : Char := Char.ofNat 34
def bslash : Char := Char.ofNat 92

/-- Split a text at its last closing brace: `s = before ++ cbrace :: after`. -/
def lastBraceSplit : Str → Option (Str × Str)
  | [] => none
  | c :: s =>
    match lastBraceSplit s with
    | some (b, a) => some (c :: b, a)
    | none => if c = cbrace then some ([], s) else none

/-- The span matched by `re.search` with pattern `\{[\s\S]*\}`: scan for the
first opening brace that is followed by some closing brace, and extend
greedily to the last closing brace. -/
def braceSpan : Str → Option Str
  | [] => none
  | c :: s =>
    if c = obrace then
      match lastBraceSplit s with
      | some (b, _) => some (obrace :: b ++ [cbrace])
      | none => braceSpan s
    else braceSpan s

/-- JSON whitespace. -/
def jsonWs (c : Char) : Bool := c = ' ' || c = '\t' || c = '\n' || c = '\r'

def skipWs (s : Str) : Str := s.dropWhile jsonWs

def hexVal (c : Char) : Option Nat :=
  if c.isDigit then some (c.toNat - 48)
  else if 'a' ≤ c ∧ c ≤ 'f' then some (c.toNat - 87)
  else if 'A' ≤ c ∧ c ≤ 'F' then some (c.toNat - 55)
  else none

def parseHex4 : Str → Option (Nat × Str)
  | a :: b :: c :: d :: s => do
    let x ← hexVal a
    let y ← hexVal b
    let z ← hexVal c
    let w ← hexVal d
    some (((x * 16 + y) * 16 + z) * 16 + w, s)
  | _ => none

/-- Body of a JSON string after the opening quote (strict mode of
`json.loads`: raw control characters are rejected). -/
def parseStrBody : Nat → Str → Option (Str × Str)
  | 0, _ => none
  | _+1, [] => none
  | f+1, c :: s =>
    if c = dquote then some ([], s)
    else if c = bslash then
      match s with
      | e :: s2 =>
        if e = dquote ∨ e = bslash ∨ e = '/' then
          (parseStrBody f s2).map (fun p => (e :: p.1, p.2))
        else if e = 'b' then (parseStrBody f s2).map (fun p => ('\x08' :: p.1, p.2))
        else if e = 'f' then (parseStrBody f s2).map (fun p => ('\x0c' :: p.1, p.2))
        else if e = 'n' then (parseStrBody f s2).map (fun p => ('\n' :: p.1, p.2))
        else if e = 'r' then (parseStrBody f s2).map (fun p => ('\r' :: p.1, p.2))
        else if e = 't' then (parseStrBody f s2).map (fun p => ('\t' :: p.1, p.2))
        else if e = 'u' then
          match parseHex4 s2 with
          | some (n, s3) => (parseStrBody f s3).map (fun p => (Char.ofNat n :: p.1, p.2))
          | none => none
        else none
      | [] => none
    else if c.toNat < 32 then none
    else (parseStrBody f s).map (fun p => (c :: p.1, p.2))

/-- Fraction and exponent tail of a JSON number; returns the full lexeme. -/
def numTail (intPart : Str) (s : Str) : Str × Str :=
  let (fr, s1) :=
    match s with
    | '.' :: r =>
      let d := r.takeWhile Char.isDigit
      if d.isEmpty then (([] : Str), s) else ('.' :: d, r.drop d.length)
    | _ => ([], s)
  let (ex, s2) :=
    match s1 with
    | c :: r =>
      if c = 'e' ∨ c = 'E' then
        let (sg, r1) := grabOpt (fun x => x = '+' || x = '-') r
        let d := r1.takeWhile Char.isDigit
        if d.isEmpty then (([] : Str), s1) else (c :: (sg ++ d), r1.drop d.length)
      else ([], s1)
    | [] => ([], s1)
  (intPart ++ fr ++ ex, s2)

/-- A JSON number: `-?(0|[1-9][0-9]*)(\.[0-9]+)?([eE][+-]?[0-9]+)?`. -/
def parseNumber (s : Str) : Option (Str × Str) :=
  let (neg, s1) := grabOpt (fun c => c = '-') s
  match s1 with
  | c :: rest =>
    if c = '0' then some (numTail (neg ++ ['0']) rest)
    else if c.isDigit then
      let run := (c :: rest).takeWhile Char.isDigit
      some (numTail (neg ++ run) ((c :: rest).drop run.length))
    else none
  | [] => none

mutual

/-- A JSON value with surrounding-whitespace skipping, as `json.loads` does. -/
def parseJsonVal : Nat → Str → Option (Json × Str)
  | 0, _ => none
  | f+1, s0 =>
    match skipWs s0 with
    | [] => none
    | c :: rest =>
      if c = dquote then (parseStrBody f rest).map (fun p => (Json.str p.1, p.2))
      else if c = obrace then parseObjItems f true [] rest
      else if c = '[' then parseArrItems f true [] rest
      else if startsWithStr ("true".toList) (c :: rest) then
        some (Json.bool true, (c :: rest).drop 4)
      else if startsWithStr ("false".toList) (c :: rest) then
        some (Json.bool false, (c :: rest).drop 5)
      else if startsWithStr ("null".toList) (c :: rest) then
        some (Json.null, (c :: rest).drop 4)
      else
        (parseNumber (c :: rest)).map (fun p => (Json.num p.1, p.2))

/-- Array items after `[` (or after a comma when `first` is false). -/
def parseArrItems : Nat → Bool → List Json → Str → Option (Json × Str)
  | 0, _, _, _ => none
  | f+1, first, acc, s =>
    match skipWs s with
    | c :: rest =>
      if first && c = ']' then some (Json.arr acc.reverse, rest)
      else
        match parseJsonVal f (c :: rest) with
        | none => none
        | some (v, s1) =>
          match skipWs s1 with
          | ',' :: s2 => parseArrItems f false (v :: acc) s2
          | c2 :: s2 =>
            if c2 = ']' then some (Json.arr (v :: acc).reverse, s2) else none
          | [] => none
    | [] => none

/-- Object members after the opening brace (or after a comma). -/
def parseObjItems : Nat → Bool → List (Str × Json) → Str → Option (Json × Str)
  | 0, _, _, _ => none
  | f+1, first, acc, s =>
    match skipWs s with
    | c :: rest =>
      if first && c = cbrace then some (Json.obj acc, rest)
      else if c = dquote then
        match parseStrBody f rest with
        | none => none
        | some (k, s1) =>
          match skipWs s1 with
          | ':' :: s2 =>
            match parseJsonVal f s2 with
            | none => none
            | some (v, s3) =>
              match skipWs s3 with
              | ',' :: s4 => parseObjItems f false (insertPair acc k v) s4
              | c2 :: s4 =>
                if c2 = cbrace then some (Json.obj (insertPair acc k v), s4) else none
              | [] => none
          | _ => none
      else none
    | [] => none

end

/-- `json.loads`: parse one value and require only whitespace after it
(otherwise Python raises `Extra data`). -/
def parseJson (s : Str) : Option Json :=
  match parseJsonVal (2 * s.length + 8) s with
  | some (j, rest) => if (skipWs rest).isEmpty then some j else none
  | none => none

/-- The pure core of `LocalLLMGateway.detect_pii` on the raw model reply:
extract the greedy brace span and parse it; on no span or a parse failure
return the empty dict. -/
def detectPii (reply : Str) : Json :=
  match braceSpan reply with
  | some span =>
    match parseJson span with
    | some j => j
    | none => Json.obj []
  | none => Json.obj []

/-- Modelled from the spec: the claim describes extraction of "the first
balanced JSON object found anywhere in the reply"; this takes the first
opening brace and scans to its matching closing brace by depth counting. -/
def firstBalanced (s : Str) : Option Str :=
  go (s.length + 1) s
where
  /-- Find the first opening brace, then take up to the matching close. -/
  go : Nat → Str → Option Str
    | 0, _ => none
    | _+1, [] => none
    | f+1, c :: rest =>
      if c = obrace then
        (take f 1 [obrace] rest).map (fun p => p)
      else go f rest
  /-- Consume until the brace depth returns to zero. -/
  take : Nat → Nat → Str → Str → Option Str
    | 0, _, _, _ => none
    | _+1, _, _, [] => none
    | f+1, d, acc, c :: rest =>
      if c = cbrace then
        if d = 1 then some (acc ++ [cbrace]) else take f (d - 1) (acc ++ [c]) rest
      else if c = obrace then take f (d + 1) (acc ++ [c]) rest
      else take f d (acc ++ [c]) rest

/-! ### `LocalLLMGateway.get_status`: the health probe.

The two `requests.get` calls are external effects; they are modelled by an
oracle value per call: either a response (status code and model list) or a
`requests.exceptions.RequestException` (connection failure or timeout).  The
`try/except` of `_check_ollama_available` and `_check_model_available` turns
any exception into `False`, so the embedded checks are total functions on the
oracle outcome. -/

inductive NetErr where
  | timeout : NetErr
  | connectionError : NetErr
deriving DecidableEq, Repr

structure HttpResponse where
  status : Nat
  models : List Str
deriving DecidableEq, Repr

abbrev NetResult := Except NetErr HttpResponse

/-- `_check_ollama_available`. -/
def checkOllamaAvailable (r : NetResult) : Bool :=
  match r with
  | .ok resp => resp.status == 200
  | .error _ => false

/-- `_check_model_available`: reachable and some listed model name starts with
the configured model identifier. -/
def checkModelAvailable (model : Str) (r : NetResult) : Bool :=
  match r with
  | .ok resp => resp.status == 200 && resp.models.any (fun m => startsWithStr model m)
  | .error _ => false

structure GatewayStatus where
  ollamaRunning : Bool
  modelAvailable : Bool
deriving DecidableEq, Repr

/-- `LocalLLMGateway.get_status`, with one oracle outcome per network call. -/
def getStatus (model : Str) (r1 r2 : NetResult) : GatewayStatus :=
  ⟨checkOllamaAvailable r1, checkModelAvailable model r2⟩

/-! ### Claim C7: mask calls are session-scoped. -/

/-- C7: mask calls are session-scoped with no state leakage: for every
previously accumulated instance state and every input, `mask` returns exactly
what it returns on a freshly constructed instance, because `reset` (pattern
masker) and the assignment clearing the mapping (model-assisted masker) run
before scanning. -/
theorem c7_mask_session_reset :
    (∀ (st : PGState) (t : Str), pgMask st t = pgMask pgInit t) ∧
    (∀ (m0 : List (Str × Str)) (det : List (Str × List Str)) (t : Str),
        llmMask m0 det t = llmMask [] det t) :=
  ⟨fun _ _ => rfl, fun _ _ _ => rfl⟩

/-! ### Claim C9: the health probe never raises. -/

/-- C9: for every failing outcome of the two underlying network calls
(connection failure or timeout against an unreachable endpoint),
`get_status` returns both flags false; the checks are total functions of the
oracle outcome, so no exception propagates. -/
theorem c9_health_probe_unreachable :
    ∀ (model : Str) (e1 e2 : NetErr),
      getStatus model (Except.error e1) (Except.error e2) =
        ⟨false, false⟩ :=
  fun _ _ _ => rfl

/-! ### Claim C2: the SSN/phone disambiguation example. -/

def c2Input : Str := "SSN 123-45-6789, call 555-123-4567".toList

/-- C2 counterexample: on the claimed input the returned mapping is exactly
the single SSN entry; it contains no `[PHONE_1]` entry at all, because the
phone scan skips the phone number (the `[SSN_` placeholder occurs earlier in
the text), contradicting the claimed `PHONE_1` entry. -/
theorem c2_counterexample :
    (pgMask pgInit c2Input).2.1 = [("[SSN_1]".toList, "123-45-6789".toList)] ∧
    ((pgMask pgInit c2Input).2.1.map Prod.fst).contains ("[PHONE_1]".toList) = false := by
  exact ⟨by decide, by decide⟩

/-- C2 amended: masking `"SSN 123-45-6789, call 555-123-4567"` records exactly
one SSN entry `[SSN_1] = "123-45-6789"` and no phone entry; the phone number
is left unmasked in the output because the `[SSN_` placeholder appears
earlier in the text at phone-scan time. -/
theorem c2_amended :
    pgMask pgInit c2Input =
      ("SSN [SSN_1], call 555-123-4567".toList,
       [("[SSN_1]".toList, "123-45-6789".toList)],
       ⟨0, 1, 0, 0, 0, [("[SSN_1]".toList, "123-45-6789".toList)]⟩) := by decide

/-! ### Claim C1: the round-trip counterexample. -/

def c1Input : Str := "[SSN_1] and 123-45-6789".toList

/-- C1 counterexample: on an input that already contains the text `[SSN_1]`,
masking maps `[SSN_1]` to the real SSN and the masked text contains the
placeholder twice, so unmasking duplicates the SSN instead of restoring the
input: the round trip is not the identity on this input. -/
theorem c1_counterexample :
    unmaskSub (pgMask pgInit c1Input).2.1 (pgMask pgInit c1Input).1 ≠ c1Input := by
  decide

/-! ### Claim C8: the order-independence counterexample. -/

/-- A detection result the model could return (its values are arbitrary
strings): category `x` detects the literal `B_1` and category `b` detects
`z`. -/
def c8Det : List (Str × List Str) := [("x".toList, ["B_1".toList]), ("b".toList, ["z".toList])]

/-- The mapping produced by the model-assisted mask on `"B_1 z"`. -/
def c8Map : List (Str × Str) := (llmMask [] c8Det ("B_1 z".toList)).2

/-- C8 counterexample: `c8Map` is a mapping produced by a mask call whose keys
are category+index-unique, yet applying its entries to the text `[[X_1]]` in
mapping order and in reversed order gives different results: replacing
`[X_1]` by `B_1` first creates a new occurrence of the key `[B_1]`. -/
theorem c8_counterexample :
    c8Map = [("[X_1]".toList, "B_1".toList), ("[B_1]".toList, "z".toList)] ∧
    unmaskSub c8Map ("[[X_1]]".toList) ≠ unmaskSub c8Map.reverse ("[[X_1]]".toList) := by
  exact ⟨by decide, by decide⟩

/-! ### Claim C5: tolerant JSON extraction. -/

def c5Reply : Str := "note \x7b\"ssn\": []\x7d and \x7b\"emails\": []\x7d".toList

/-- C5 counterexample: on a reply containing two JSON objects separated by
prose, the first balanced JSON object parses to a non-empty detection, but
`detect_pii` extracts the greedy span from the first `\x7b` to the last
`\x7d`, whose parse fails, and returns the empty dict instead. -/
theorem c5_counterexample :
    (firstBalanced c5Reply).bind parseJson = some (Json.obj [("ssn".toList, Json.arr [])]) ∧
    detectPii c5Reply = Json.obj [] ∧
    Json.obj [("ssn".toList, Json.arr [])] ≠ Json.obj [] := by
  refine ⟨rfl, rfl, ?_⟩
  simp

/- Characterisation lemmas for the greedy brace span. -/

theorem occursIn_single_cons {x c : Char} {ts : Str}
    (h : occursIn [x] (c :: ts) = false) : c ≠ x ∧ occursIn [x] ts = false := by
  simp only [occursIn, Bool.or_eq_false_iff, startsWithStr, Bool.and_eq_false_iff] at h
  refine ⟨?_, h.2⟩
  rcases h.1 with h1 | h1
  · intro he
    subst he
    simp at h1
  · simp [startsWithStr] at h1

theorem lastBraceSplit_none (s : Str) (h : occursIn [cbrace] s = false) :
    lastBraceSplit s = none := by
  induction s with
  | nil => rfl
  | cons c ts ih =>
    obtain ⟨h1, h2⟩ := occursIn_single_cons h
    simp [lastBraceSplit, ih h2, h1]

theorem lastBraceSplit_append (b c : Str) (h : occursIn [cbrace] c = false) :
    lastBraceSplit (b ++ cbrace :: c) = some (b, c) := by
  induction b with
  | nil =>
    simp [lastBraceSplit, lastBraceSplit_none c h]
  | cons x bs ih =>
    simp only [List.cons_append, lastBraceSplit]
    rw [show bs.append (cbrace :: c) = bs ++ cbrace :: c from rfl, ih]

theorem braceSpan_decomp (a b c : Str) (ha : occursIn [obrace] a = false)
    (hc : occursIn [cbrace] c = false) :
    braceSpan (a ++ obrace :: b ++ cbrace :: c) = some (obrace :: b ++ [cbrace]) := by
  induction a with
  | nil =>
    have h := lastBraceSplit_append b c hc
    simp only [List.nil_append, List.cons_append, braceSpan, if_pos rfl]
    rw [show b.append (cbrace :: c) = b ++ cbrace :: c from rfl, h]
    simp
  | cons x as ih =>
    obtain ⟨hx, ha2⟩ := occursIn_single_cons ha
    simp only [List.cons_append, braceSpan, if_neg hx]
    exact ih ha2

/-- C5 amended: `detect_pii` extracts the greedy span from the first opening
brace to the last closing brace of the reply (the `re.search` of
`\x7b[\s\S]*\x7d`), not the first balanced object; it returns that span's
parse when it parses, and the empty dict (treated as no PII detected) when
there is no such span or parsing fails, never raising. -/
theorem c5_amended :
    (∀ a b c : Str, occursIn [obrace] a = false → occursIn [cbrace] c = false →
      braceSpan (a ++ obrace :: b ++ cbrace :: c) = some (obrace :: b ++ [cbrace]) ∧
      detectPii (a ++ obrace :: b ++ cbrace :: c) =
        (parseJson (obrace :: b ++ [cbrace])).getD (Json.obj [])) ∧
    (∀ r : Str, braceSpan r = none → detectPii r = Json.obj []) := by
  constructor
  · intro a b c ha hc
    have hspan := braceSpan_decomp a b c ha hc
    refine ⟨hspan, ?_⟩
    simp only [detectPii, hspan]
    cases parseJson (obrace :: b ++ [cbrace]) <;> rfl
  · intro r hr
    simp only [detectPii, hr]

/-- C5 amended, witness: the characterisation applied to a concrete reply
with prose on both sides of a single JSON object. -/
theorem c5_witness :
    occursIn [obrace] ("pre ".toList) = false ∧
    occursIn [cbrace] (" post".toList) = false ∧
    braceSpan ("pre ".toList ++ obrace :: "\"emails\": [\"a@b.co\"]".toList ++
        cbrace :: " post".toList) =
      some (obrace :: "\"emails\": [\"a@b.co\"]".toList ++ [cbrace]) ∧
    detectPii ("pre ".toList ++ obrace :: "\"emails\": [\"a@b.co\"]".toList ++
        cbrace :: " post".toList) =
      (parseJson (obrace :: "\"emails\": [\"a@b.co\"]".toList ++ [cbrace])).getD (Json.obj []) :=
  ⟨by decide, by decide,
    c5_amended.1 ("pre ".toList) ("\"emails\": [\"a@b.co\"]".toList) (" post".toList)
      (by decide) (by decide)⟩

/-! ### Claim C4: the substitution algorithm of `LocalLLMGateway.mask`. -/

/-- C4: `mask` with a pre-computed detection result resets the session
mapping (the prior mapping is irrelevant); categories are processed in order
and each category starts its counter at zero; a non-empty value still present
in the progressively masked text gets the next 1-based placeholder for its
category, is recorded, and all its occurrences are replaced before the next
value; empty or absent values change nothing (no error, no counter bump). -/
theorem c4_mask_from_detection :
    (∀ (m0 : List (Str × Str)) (det : List (Str × List Str)) (t : Str),
        llmMask m0 det t = det.foldl llmCat (t, [])) ∧
    (∀ (acc : Str × List (Str × Str)) (entry : Str × List Str), entry.2 ≠ [] →
        llmCat acc entry =
          ((entry.2.foldl (llmStep entry.1) (acc.1, 0, acc.2)).1,
           (entry.2.foldl (llmStep entry.1) (acc.1, 0, acc.2)).2.2)) ∧
    (∀ (cat text : Str) (ctr : Nat) (mp : List (Str × Str)) (v : Str),
        v ≠ [] → occursIn v text = true →
        llmStep cat (text, ctr, mp) v =
          (replaceAll v (mkKey (upperStr cat) (ctr + 1)) text, ctr + 1,
           insertPair mp (mkKey (upperStr cat) (ctr + 1)) v)) ∧
    (∀ (cat text : Str) (ctr : Nat) (mp : List (Str × Str)) (v : Str),
        v = [] ∨ occursIn v text = false →
        llmStep cat (text, ctr, mp) v = (text, ctr, mp)) := by
  refine ⟨fun _ _ _ => rfl, ?_, ?_, ?_⟩
  · intro acc entry hne
    simp only [llmCat, List.isEmpty_iff]
    rw [if_neg hne]
  · intro cat text ctr mp v hv hocc
    simp only [llmStep]
    rw [if_pos ⟨hv, hocc⟩]
  · intro cat text ctr mp v h
    simp only [llmStep]
    rw [if_neg]
    rintro ⟨h1, h2⟩
    rcases h with h | h
    · exact h1 h
    · rw [h] at h2
      exact Bool.false_ne_true h2

/-- C4 witness: the characterisation applied at concrete inputs, one
recording step (value `ab` present in `ab cd`) and one skipping step
(value `zz` absent). -/
theorem c4_witness :
    (("ab".toList : Str) ≠ [] ∧ occursIn ("ab".toList) ("ab cd".toList) = true ∧
      llmStep ("ssn".toList) ("ab cd".toList, 0, []) ("ab".toList) =
        (replaceAll ("ab".toList) (mkKey (upperStr ("ssn".toList)) 1) ("ab cd".toList), 1,
         insertPair [] (mkKey (upperStr ("ssn".toList)) 1) ("ab".toList))) ∧
    llmStep ("ssn".toList) ("ab cd".toList, 0, []) ("zz".toList) = ("ab cd".toList, 0, []) :=
  ⟨⟨by decide, by decide,
      c4_mask_from_detection.2.2.1 ("ssn".toList) ("ab cd".toList) 0 [] ("ab".toList)
        (by decide) (by decide)⟩,
    c4_mask_from_detection.2.2.2 ("ssn".toList) ("ab cd".toList) 0 [] ("zz".toList)
      (Or.inr (by decide))⟩

/-! ### Decimal rendering: digits, non-emptiness, injectivity. -/

/-- Value of a digit string (inverse of `natStr`). -/
def digitsVal (s : Str) : Nat := s.foldl (fun a c => a * 10 + (c.toNat - 48)) 0

theorem natStrAux_fuel : ∀ n f1 f2, n < f1 → n < f2 → natStrAux f1 n = natStrAux f2 n := by
  intro n
  induction n using Nat.strong_induction_on with
  | _ n ih =>
    intro f1 f2 h1 h2
    cases f1 with
    | zero => omega
    | succ f1 =>
      cases f2 with
      | zero => omega
      | succ f2 =>
        by_cases hn : n < 10
        · simp [natStrAux, hn]
        · have hdiv : n / 10 < n := Nat.div_lt_self (by omega) (by omega)
          simp only [natStrAux, if_neg hn]
          rw [ih (n / 10) hdiv f1 f2 (by omega) (by omega)]

theorem natStr_unfold (n : Nat) :
    natStr n = if n < 10 then [Nat.digitChar n]
               else natStr (n / 10) ++ [Nat.digitChar (n % 10)] := by
  show natStrAux (n + 1) n = _
  by_cases hn : n < 10
  · simp [natStrAux, hn]
  · have hdiv : n / 10 < n := Nat.div_lt_self (by omega) (by omega)
    simp only [natStrAux, if_neg hn]
    rw [natStrAux_fuel (n / 10) n (n / 10 + 1) (by omega) (by omega)]
    rfl

theorem digitChar_toNat (m : Nat) (h : m < 10) : (Nat.digitChar m).toNat = 48 + m := by
  interval_cases m <;> rfl

theorem digitChar_isDigit (m : Nat) (h : m < 10) : (Nat.digitChar m).isDigit = true := by
  interval_cases m <;> rfl

theorem digitsVal_append_one (a : Str) (c : Char) :
    digitsVal (a ++ [c]) = digitsVal a * 10 + (c.toNat - 48) := by
  simp [digitsVal, List.foldl_append]

theorem digitsVal_natStr : ∀ n, digitsVal (natStr n) = n := by
  intro n
  induction n using Nat.strong_induction_on with
  | _ n ih =>
    rw [natStr_unfold]
    by_cases hn : n < 10
    · simp only [if_pos hn, digitsVal, List.foldl_cons, List.foldl_nil]
      rw [digitChar_toNat n hn]
      omega
    · have hdiv : n / 10 < n := Nat.div_lt_self (by omega) (by omega)
      simp only [if_neg hn]
      rw [digitsVal_append_one, ih (n / 10) hdiv, digitChar_toNat (n % 10) (by omega)]
      omega

theorem natStr_inj {n m : Nat} (h : natStr n = natStr m) : n = m := by
  have := digitsVal_natStr n
  rw [h, digitsVal_natStr] at this
  omega

theorem natStr_ne_nil (n : Nat) : natStr n ≠ [] := by
  rw [natStr_unfold]
  by_cases hn : n < 10 <;> simp [hn]

theorem natStr_digits : ∀ n, ∀ c ∈ natStr n, c.isDigit = true := by
  intro n
  induction n using Nat.strong_induction_on with
  | _ n ih =>
    rw [natStr_unfold]
    by_cases hn : n < 10
    · simp only [if_pos hn, List.mem_singleton]
      rintro c rfl
      exact digitChar_isDigit n hn
    · have hdiv : n / 10 < n := Nat.div_lt_self (by omega) (by omega)
      simp only [if_neg hn, List.mem_append, List.mem_singleton]
      rintro c (hc | rfl)
      · exact ih (n / 10) hdiv c hc
      · exact digitChar_isDigit (n % 10) (by omega)

/-! ### Injectivity of the placeholder shape. -/

theorem takeWhile_all_append (p : Char → Bool) (a : Str) (c : Char) (b : Str)
    (ha : ∀ x ∈ a, p x = true) (hc : p c = false) :
    (a ++ c :: b).takeWhile p = a ∧ (a ++ c :: b).dropWhile p = c :: b := by
  induction a with
  | nil => simp [List.takeWhile, List.dropWhile, hc]
  | cons x xs ih =>
    have hx : p x = true := ha x (by simp)
    have hxs : ∀ y ∈ xs, p y = true := fun y hy => ha y (by simp [hy])
    obtain ⟨h1, h2⟩ := ih hxs
    simp [List.takeWhile, List.dropWhile, hx, h1, h2]

theorem mkKey_inj {c1 c2 : Str} {n m : Nat} (h : mkKey c1 n = mkKey c2 m) :
    c1 = c2 ∧ n = m := by
  have h0 : c1 ++ '_' :: (natStr n ++ [']']) = c2 ++ '_' :: (natStr m ++ [']']) := by
    simpa [mkKey] using h
  have hrev : ((natStr n).reverse ++ '_' :: c1.reverse) =
      ((natStr m).reverse ++ '_' :: c2.reverse) := by
    have := congrArg List.reverse h0
    simpa [List.reverse_append] using this
  have hd1 : ∀ x ∈ (natStr n).reverse, x.isDigit = true := by
    intro x hx
    exact natStr_digits n x (List.mem_reverse.mp hx)
  have hd2 : ∀ x ∈ (natStr m).reverse, x.isDigit = true := by
    intro x hx
    exact natStr_digits m x (List.mem_reverse.mp hx)
  have hund : ('_' : Char).isDigit = false := rfl
  obtain ⟨ht1, hr1⟩ := takeWhile_all_append Char.isDigit (natStr n).reverse '_' c1.reverse hd1 hund
  obtain ⟨ht2, hr2⟩ := takeWhile_all_append Char.isDigit (natStr m).reverse '_' c2.reverse hd2 hund
  have hta : (natStr n).reverse = (natStr m).reverse := by
    rw [← ht1, ← ht2, hrev]
  have hnm : n = m := natStr_inj (by
    have := congrArg List.reverse hta
    simpa using this)
  have hca : c1.reverse = c2.reverse := by
    have h3 : ('_' :: c1.reverse : Str) = '_' :: c2.reverse := by
      rw [← hr1, ← hr2, hrev]
    exact List.cons_injective.eq_iff.mp h3
  have hc : c1 = c2 := by
    have := congrArg List.reverse hca
    simpa using this
  exact ⟨hc, hnm⟩

/-! ### Per-category state access and the common shape of the callbacks. -/

inductive PCat where
  | cc
  | ssn
  | em
  | ph
  | nm
deriving DecidableEq, Repr

def catName : PCat → Str
  | .cc => ccCat
  | .ssn => ssnCat
  | .em => emCat
  | .ph => phCat
  | .nm => nmCat

def getN : PCat → PGState → Nat
  | .cc, st => st.ccN
  | .ssn, st => st.ssnN
  | .em, st => st.emN
  | .ph, st => st.phN
  | .nm, st => st.nmN

/-- Common shape of the five replace callbacks of the pattern masker: either
decline and keep the state, or record the next key of the category. -/
structure MkLike (mk : PGState → Str → Str → Option Str × PGState) (c : PCat) : Prop where
  none_keep : ∀ st pre stored, (mk st pre stored).1 = none → (mk st pre stored).2 = st
  some_key : ∀ st pre stored key, (mk st pre stored).1 = some key →
    key = mkKey (catName c) (getN c st + 1)
  some_n : ∀ st pre stored key, (mk st pre stored).1 = some key →
    getN c (mk st pre stored).2 = getN c st + 1
  some_map : ∀ st pre stored key, (mk st pre stored).1 = some key →
    (mk st pre stored).2.mapping = st.mapping ++ [(key, stored)]
  others : ∀ st pre stored c', c' ≠ c → getN c' (mk st pre stored).2 = getN c' st

theorem mkCC_like : MkLike mkCC .cc := by
  constructor
  · intro st pre stored h
    simp [mkCC] at h
  · intro st pre stored key h
    simp only [mkCC] at h
    exact (Option.some.inj h).symm
  · intro st pre stored key _
    simp [mkCC, getN]
  · intro st pre stored key h
    simp only [mkCC] at h ⊢
    rw [← Option.some.inj h]
  · intro st pre stored c' hc
    cases c' <;> simp [mkCC, getN] <;> exact absurd rfl hc

theorem mkEM_like : MkLike mkEM .em := by
  constructor
  · intro st pre stored h
    simp [mkEM] at h
  · intro st pre stored key h
    simp only [mkEM] at h
    exact (Option.some.inj h).symm
  · intro st pre stored key _
    simp [mkEM, getN]
  · intro st pre stored key h
    simp only [mkEM] at h ⊢
    rw [← Option.some.inj h]
  · intro st pre stored c' hc
    cases c' <;> simp [mkEM, getN] <;> exact absurd rfl hc

theorem mkNM_like : MkLike mkNM .nm := by
  constructor
  · intro st pre stored h
    simp [mkNM] at h
  · intro st pre stored key h
    simp only [mkNM] at h
    exact (Option.some.inj h).symm
  · intro st pre stored key _
    simp [mkNM, getN]
  · intro st pre stored key h
    simp only [mkNM] at h ⊢
    rw [← Option.some.inj h]
  · intro st pre stored c' hc
    cases c' <;> simp [mkNM, getN] <;> exact absurd rfl hc

theorem mkSSN_like : MkLike mkSSN .ssn := by
  constructor
  · intro st pre stored h
    simp only [mkSSN] at h ⊢
    by_cases hg : (stored.filter (fun c => !sepDash c)).length = 9
    · rw [if_pos hg] at h
      simp at h
    · rw [if_neg hg]
  · intro st pre stored key h
    simp only [mkSSN] at h
    by_cases hg : (stored.filter (fun c => !sepDash c)).length = 9
    · rw [if_pos hg] at h
      exact (Option.some.inj h).symm
    · rw [if_neg hg] at h
      simp at h
  · intro st pre stored key h
    simp only [mkSSN] at h ⊢
    by_cases hg : (stored.filter (fun c => !sepDash c)).length = 9
    · rw [if_pos hg]
      simp [getN]
    · rw [if_neg hg] at h
      simp at h
  · intro st pre stored key h
    simp only [mkSSN] at h ⊢
    by_cases hg : (stored.filter (fun c => !sepDash c)).length = 9
    · rw [if_pos hg] at h ⊢
      rw [← Option.some.inj h]
    · rw [if_neg hg] at h
      simp at h
  · intro st pre stored c' hc
    simp only [mkSSN]
    by_cases hg : (stored.filter (fun c => !sepDash c)).length = 9
    · rw [if_pos hg]
      cases c' <;> simp [getN] <;> exact absurd rfl hc
    · rw [if_neg hg]

theorem mkPH_like : MkLike mkPH .ph := by
  constructor
  · intro st pre stored h
    simp only [mkPH] at h ⊢
    by_cases hg : occursIn ssnTag pre = true
    · rw [if_pos hg]
    · rw [if_neg hg] at h
      simp at h
  · intro st pre stored key h
    simp only [mkPH] at h
    by_cases hg : occursIn ssnTag pre = true
    · rw [if_pos hg] at h
      simp at h
    · rw [if_neg hg] at h
      exact (Option.some.inj h).symm
  · intro st pre stored key h
    simp only [mkPH] at h ⊢
    by_cases hg : occursIn ssnTag pre = true
    · rw [if_pos hg] at h
      simp at h
    · rw [if_neg hg]
      simp [getN]
  · intro st pre stored key h
    simp only [mkPH] at h ⊢
    by_cases hg : occursIn ssnTag pre = true
    · rw [if_pos hg] at h
      simp at h
    · rw [if_neg hg] at h ⊢
      rw [← Option.some.inj h]
  · intro st pre stored c' hc
    simp only [mkPH]
    by_cases hg : occursIn ssnTag pre = true
    · rw [if_pos hg]
    · rw [if_neg hg]
      cases c' <;> simp [getN] <;> exact absurd rfl hc

/-! ### Trace-level characterisation of one `re.sub` scan. -/

/-- The recorded `(key, original)` pairs of a trace, in order. -/
def repsOf : List Chunk → List (Str × Str)
  | [] => []
  | Chunk.rep _ key o :: cs => (key, o) :: repsOf cs
  | Chunk.lit _ :: cs => repsOf cs
  | Chunk.skipm _ _ :: cs => repsOf cs

/-! Unfolding equations for `scanAux`. -/

theorem scanAux_zero {σ : Type} (m : Option Char → Str → Option (Str × Str × Str))
    (mk : σ → Str → Str → Option Str × σ) (prev : Option Char) (pre s : Str) (st : σ) :
    scanAux m mk 0 prev pre s st = (if s.isEmpty then [] else [Chunk.lit s], st) := rfl

theorem scanAux_nil {σ : Type} (m : Option Char → Str → Option (Str × Str × Str))
    (mk : σ → Str → Str → Option Str × σ) (fuel : Nat) (prev : Option Char)
    (pre : Str) (st : σ) :
    scanAux m mk (fuel + 1) prev pre [] st = ([], st) := rfl

theorem scanAux_lit {σ : Type} {m : Option Char → Str → Option (Str × Str × Str)}
    (mk : σ → Str → Str → Option Str × σ) {fuel : Nat} {prev : Option Char}
    {pre : Str} {ch : Char} {s' : Str} {st : σ} (hm : m prev (ch :: s') = none) :
    scanAux m mk (fuel + 1) prev pre (ch :: s') st =
      (Chunk.lit [ch] :: (scanAux m mk fuel (some ch) (pre ++ [ch]) s' st).1,
       (scanAux m mk fuel (some ch) (pre ++ [ch]) s' st).2) := by
  simp only [scanAux, hm]

theorem scanAux_rep {σ : Type} {m : Option Char → Str → Option (Str × Str × Str)}
    {mk : σ → Str → Str → Option Str × σ} {fuel : Nat} {prev : Option Char}
    {pre : Str} {ch : Char} {s' : Str} {st st1 : σ} {kp stored rest key : Str}
    (hm : m prev (ch :: s') = some (kp, stored, rest))
    (hmk : mk st pre stored = (some key, st1)) :
    scanAux m mk (fuel + 1) prev pre (ch :: s') st =
      (Chunk.rep kp key stored ::
        (scanAux m mk fuel ((kp ++ stored).getLast? <|> some ch)
          (pre ++ (kp ++ stored)) rest st1).1,
       (scanAux m mk fuel ((kp ++ stored).getLast? <|> some ch)
          (pre ++ (kp ++ stored)) rest st1).2) := by
  simp only [scanAux, hm, hmk]

theorem scanAux_skip {σ : Type} {m : Option Char → Str → Option (Str × Str × Str)}
    {mk : σ → Str → Str → Option Str × σ} {fuel : Nat} {prev : Option Char}
    {pre : Str} {ch : Char} {s' : Str} {st st1 : σ} {kp stored rest : Str}
    (hm : m prev (ch :: s') = some (kp, stored, rest))
    (hmk : mk st pre stored = (none, st1)) :
    scanAux m mk (fuel + 1) prev pre (ch :: s') st =
      (Chunk.skipm kp stored ::
        (scanAux m mk fuel ((kp ++ stored).getLast? <|> some ch)
          (pre ++ (kp ++ stored)) rest st1).1,
       (scanAux m mk fuel ((kp ++ stored).getLast? <|> some ch)
          (pre ++ (kp ++ stored)) rest st1).2) := by
  simp only [scanAux, hm, hmk]

/-- A scan only appends to the mapping: the new entries are exactly the
recorded pairs of the trace, the scan's category counter advances by their
number, the keys are the consecutive placeholders of the category starting
just above the incoming counter, and the other counters are untouched. -/
theorem scanAux_mkLike {mk : PGState → Str → Str → Option Str × PGState} {c : PCat}
    (H : MkLike mk c) (m : Option Char → Str → Option (Str × Str × Str)) :
    ∀ fuel prev pre s st,
      ((scanAux m mk fuel prev pre s st).2.mapping =
         st.mapping ++ repsOf (scanAux m mk fuel prev pre s st).1) ∧
      (getN c (scanAux m mk fuel prev pre s st).2 =
         getN c st + (repsOf (scanAux m mk fuel prev pre s st).1).length) ∧
      (∀ c', c' ≠ c → getN c' (scanAux m mk fuel prev pre s st).2 = getN c' st) ∧
      ((repsOf (scanAux m mk fuel prev pre s st).1).map Prod.fst =
        (List.range (repsOf (scanAux m mk fuel prev pre s st).1).length).map
          (fun i => mkKey (catName c) (getN c st + 1 + i))) := by
  intro fuel
  induction fuel with
  | zero =>
    intro prev pre s st
    by_cases hs : s.isEmpty <;> simp [scanAux_zero, hs, repsOf]
  | succ fuel ih =>
    intro prev pre s st
    cases s with
    | nil => simp [scanAux_nil, repsOf]
    | cons ch s' =>
      cases hm : m prev (ch :: s') with
      | none =>
        rw [scanAux_lit mk hm]
        obtain ⟨h1, h2, h3, h4⟩ := ih (some ch) (pre ++ [ch]) s' st
        exact ⟨by simpa [repsOf] using h1, by simpa [repsOf] using h2,
          fun c' hc => h3 c' hc, by simpa [repsOf] using h4⟩
      | some triple =>
        obtain ⟨kp, stored, rest⟩ := triple
        rcases hp : mk st pre stored with ⟨okey, st1⟩
        cases okey with
        | none =>
          have hkeep : st1 = st := by
            have h0 := H.none_keep st pre stored (by rw [hp])
            rw [hp] at h0
            exact h0
          rw [scanAux_skip hm hp, hkeep]
          obtain ⟨h1, h2, h3, h4⟩ :=
            ih ((kp ++ stored).getLast? <|> some ch) (pre ++ (kp ++ stored)) rest st
          exact ⟨by simpa [repsOf] using h1, by simpa [repsOf] using h2,
            fun c' hc => h3 c' hc, by simpa [repsOf] using h4⟩
        | some key =>
          rw [scanAux_rep hm hp]
          have hk : key = mkKey (catName c) (getN c st + 1) :=
            H.some_key st pre stored key (by rw [hp])
          have hn : getN c st1 = getN c st + 1 := by
            have h0 := H.some_n st pre stored key (by rw [hp])
            rw [hp] at h0
            exact h0
          have hmap : st1.mapping = st.mapping ++ [(key, stored)] := by
            have h0 := H.some_map st pre stored key (by rw [hp])
            rw [hp] at h0
            exact h0
          have hoth : ∀ c', c' ≠ c → getN c' st1 = getN c' st := by
            intro c' hc
            have h0 := H.others st pre stored c' hc
            rw [hp] at h0
            exact h0
          obtain ⟨h1, h2, h3, h4⟩ :=
            ih ((kp ++ stored).getLast? <|> some ch) (pre ++ (kp ++ stored)) rest st1
          refine ⟨?_, ?_, ?_, ?_⟩
          · simp only [repsOf]
            rw [h1, hmap, List.append_assoc]
            rfl
          · rw [show getN c
                (Chunk.rep kp key stored ::
                  (scanAux m mk fuel ((kp ++ stored).getLast? <|> some ch)
                    (pre ++ (kp ++ stored)) rest st1).1,
                 (scanAux m mk fuel ((kp ++ stored).getLast? <|> some ch)
                    (pre ++ (kp ++ stored)) rest st1).2).2 =
              getN c (scanAux m mk fuel ((kp ++ stored).getLast? <|> some ch)
                    (pre ++ (kp ++ stored)) rest st1).2 from rfl, h2, hn]
            simp only [repsOf, List.length_cons]
            omega
          · intro c' hc
            rw [h3 c' hc, hoth c' hc]
          · simp only [repsOf, List.map_cons, List.length_cons]
            rw [h4, hn, hk, List.range_succ_eq_map, List.map_cons, List.map_map]
            simp only [Nat.add_zero]
            congr 1
            refine List.map_congr_left ?_
            intro i hi
            show mkKey (catName c) (getN c st + 1 + 1 + i) =
              mkKey (catName c) (getN c st + 1 + Nat.succ i)
            have harith : getN c st + 1 + 1 + i = getN c st + 1 + Nat.succ i := by omega
            rw [harith]

/-! ### Consecutive placeholder blocks. -/

/-- The keys of `l` are the consecutive placeholders of `cat` numbered
`base+1, base+2, ...`. -/
def KeysFrom (cat : Str) (base : Nat) (l : List (Str × Str)) : Prop :=
  l.map Prod.fst = (List.range l.length).map (fun i => mkKey cat (base + 1 + i))

theorem keysFrom_append {cat : Str} {base : Nat} {l1 l2 : List (Str × Str)}
    (h1 : KeysFrom cat base l1) (h2 : KeysFrom cat (base + l1.length) l2) :
    KeysFrom cat base (l1 ++ l2) := by
  unfold KeysFrom at *
  rw [List.map_append, List.length_append, List.range_add, List.map_append, List.map_map]
  rw [h1, h2]
  congr 1
  refine List.map_congr_left ?_
  intro i _
  simp only [Function.comp_apply]
  congr 1
  omega

/-- Specialisation of the scan characterisation to one full stage pass. -/
theorem stageRun_mkLike {mk : PGState → Str → Str → Option Str × PGState} {c : PCat}
    (H : MkLike mk c) (m : Option Char → Str → Option (Str × Str × Str))
    (t : Str) (st : PGState) :
    ∃ e : List (Str × Str),
      (stageRun m mk t st).2.mapping = st.mapping ++ e ∧
      KeysFrom (catName c) (getN c st) e ∧
      getN c (stageRun m mk t st).2 = getN c st + e.length ∧
      (∀ c', c' ≠ c → getN c' (stageRun m mk t st).2 = getN c' st) := by
  obtain ⟨h1, h2, h3, h4⟩ := scanAux_mkLike H m (t.length + 1) none [] t st
  exact ⟨repsOf (runScan m mk t st).1, h1, h4, h2, h3⟩

/-- The mapping returned by `PrivacyGateway.mask` consists of the credit-card
entries, then the SSN, email, phone and name entries, each block carrying the
consecutive placeholders of its category numbered from 1; the final state's
counters are the block lengths. -/
theorem pgMask_blocks (st0 : PGState) (t : Str) :
    ∃ ecc essn eem eph enm : List (Str × Str),
      (pgMask st0 t).2.1 = ecc ++ essn ++ eem ++ eph ++ enm ∧
      KeysFrom ccCat 0 ecc ∧ KeysFrom ssnCat 0 essn ∧ KeysFrom emCat 0 eem ∧
      KeysFrom phCat 0 eph ∧ KeysFrom nmCat 0 enm ∧
      (pgMask st0 t).2.2.phN = eph.length := by
  obtain ⟨e1, a1, k1, n1, o1⟩ := stageRun_mkLike mkCC_like creditMatcher t pgInit
  obtain ⟨e2, a2, k2, n2, o2⟩ := stageRun_mkLike mkSSN_like ssnMatcher (pgRun1 t).1 (pgRun1 t).2
  obtain ⟨e3, a3, k3, n3, o3⟩ := stageRun_mkLike mkEM_like emailMatcher (pgRun2 t).1 (pgRun2 t).2
  obtain ⟨e4, a4, k4, n4, o4⟩ := stageRun_mkLike mkPH_like phoneMatcher (pgRun3 t).1 (pgRun3 t).2
  obtain ⟨e5, a5, k5, n5, o5⟩ := stageRun_mkLike mkNM_like nm1Matcher (pgRun4 t).1 (pgRun4 t).2
  obtain ⟨e6, a6, k6, n6, o6⟩ := stageRun_mkLike mkNM_like nm2Matcher (pgRun5 t).1 (pgRun5 t).2
  obtain ⟨e7, a7, k7, n7, o7⟩ := stageRun_mkLike mkNM_like nm3Matcher (pgRun6 t).1 (pgRun6 t).2
  obtain ⟨e8, a8, k8, n8, o8⟩ := stageRun_mkLike mkNM_like nm4Matcher (pgRun7 t).1 (pgRun7 t).2
  -- counters entering each stage
  have hcc1 : getN .cc pgInit = 0 := rfl
  have hssn2 : getN .ssn (pgRun1 t).2 = 0 := o1 .ssn (by decide)
  have hem3 : getN .em (pgRun2 t).2 = 0 := by
    rw [show (pgRun2 t).2 = (stageRun ssnMatcher mkSSN (pgRun1 t).1 (pgRun1 t).2).2 from rfl]
    rw [o2 .em (by decide)]
    exact o1 .em (by decide)
  have hph4 : getN .ph (pgRun3 t).2 = 0 := by
    rw [show (pgRun3 t).2 = (stageRun emailMatcher mkEM (pgRun2 t).1 (pgRun2 t).2).2 from rfl]
    rw [o3 .ph (by decide)]
    rw [show (pgRun2 t).2 = (stageRun ssnMatcher mkSSN (pgRun1 t).1 (pgRun1 t).2).2 from rfl]
    rw [o2 .ph (by decide)]
    exact o1 .ph (by decide)
  have hnm5 : getN .nm (pgRun4 t).2 = 0 := by
    rw [show (pgRun4 t).2 = (stageRun phoneMatcher mkPH (pgRun3 t).1 (pgRun3 t).2).2 from rfl]
    rw [o4 .nm (by decide)]
    rw [show (pgRun3 t).2 = (stageRun emailMatcher mkEM (pgRun2 t).1 (pgRun2 t).2).2 from rfl]
    rw [o3 .nm (by decide)]
    rw [show (pgRun2 t).2 = (stageRun ssnMatcher mkSSN (pgRun1 t).1 (pgRun1 t).2).2 from rfl]
    rw [o2 .nm (by decide)]
    exact o1 .nm (by decide)
  have hnm6 : getN .nm (pgRun5 t).2 = e5.length := by
    rw [show (pgRun5 t).2 = (stageRun nm1Matcher mkNM (pgRun4 t).1 (pgRun4 t).2).2 from rfl]
    rw [n5, hnm5]
    omega
  have hnm7 : getN .nm (pgRun6 t).2 = e5.length + e6.length := by
    rw [show (pgRun6 t).2 = (stageRun nm2Matcher mkNM (pgRun5 t).1 (pgRun5 t).2).2 from rfl]
    rw [n6, hnm6]
  have hnm8 : getN .nm (pgRun7 t).2 = e5.length + e6.length + e7.length := by
    rw [show (pgRun7 t).2 = (stageRun nm3Matcher mkNM (pgRun6 t).1 (pgRun6 t).2).2 from rfl]
    rw [n7, hnm7]
  -- the name entries form one consecutive block
  have knm : KeysFrom nmCat 0 (e5 ++ e6 ++ e7 ++ e8) := by
    rw [hnm5] at k5
    rw [hnm6] at k6
    rw [hnm7] at k7
    rw [hnm8] at k8
    have k6s : KeysFrom nmCat (0 + e5.length) e6 := by
      rw [show 0 + e5.length = e5.length from by omega]
      exact k6
    have k56 : KeysFrom nmCat 0 (e5 ++ e6) := keysFrom_append k5 k6s
    have k7s : KeysFrom nmCat (0 + (e5 ++ e6).length) e7 := by
      rw [show 0 + (e5 ++ e6).length = e5.length + e6.length from by
        simp [List.length_append]]
      exact k7
    have k567 : KeysFrom nmCat 0 (e5 ++ e6 ++ e7) := keysFrom_append k56 k7s
    have k8s : KeysFrom nmCat (0 + (e5 ++ e6 ++ e7).length) e8 := by
      rw [show 0 + (e5 ++ e6 ++ e7).length = e5.length + e6.length + e7.length from by
        simp only [List.length_append]
        omega]
      exact k8
    exact keysFrom_append k567 k8s
  -- the full mapping
  have hmap : (pgMask st0 t).2.1 = e1 ++ e2 ++ e3 ++ e4 ++ (e5 ++ e6 ++ e7 ++ e8) := by
    have h8 : (pgMask st0 t).2.1 =
        (stageRun nm4Matcher mkNM (pgRun7 t).1 (pgRun7 t).2).2.mapping := by
      simp only [pgMask, pgRun8]
    rw [h8, a8]
    rw [show (pgRun7 t).2 = (stageRun nm3Matcher mkNM (pgRun6 t).1 (pgRun6 t).2).2 from rfl, a7]
    rw [show (pgRun6 t).2 = (stageRun nm2Matcher mkNM (pgRun5 t).1 (pgRun5 t).2).2 from rfl, a6]
    rw [show (pgRun5 t).2 = (stageRun nm1Matcher mkNM (pgRun4 t).1 (pgRun4 t).2).2 from rfl, a5]
    rw [show (pgRun4 t).2 = (stageRun phoneMatcher mkPH (pgRun3 t).1 (pgRun3 t).2).2 from rfl, a4]
    rw [show (pgRun3 t).2 = (stageRun emailMatcher mkEM (pgRun2 t).1 (pgRun2 t).2).2 from rfl, a3]
    rw [show (pgRun2 t).2 = (stageRun ssnMatcher mkSSN (pgRun1 t).1 (pgRun1 t).2).2 from rfl, a2]
    rw [show (pgRun1 t).2 = (stageRun creditMatcher mkCC t pgInit).2 from rfl, a1]
    show ([] : List (Str × Str)) ++ e1 ++ e2 ++ e3 ++ e4 ++ e5 ++ e6 ++ e7 ++ e8 = _
    simp [List.append_assoc]
  -- the phone counter of the final state
  have hphN : getN .ph (pgMask st0 t).2.2 = e4.length := by
    have h8 : (pgMask st0 t).2.2 =
        (stageRun nm4Matcher mkNM (pgRun7 t).1 (pgRun7 t).2).2 := by
      simp only [pgMask, pgRun8]
    rw [h8, o8 .ph (by decide)]
    rw [show (pgRun7 t).2 = (stageRun nm3Matcher mkNM (pgRun6 t).1 (pgRun6 t).2).2 from rfl,
      o7 .ph (by decide)]
    rw [show (pgRun6 t).2 = (stageRun nm2Matcher mkNM (pgRun5 t).1 (pgRun5 t).2).2 from rfl,
      o6 .ph (by decide)]
    rw [show (pgRun5 t).2 = (stageRun nm1Matcher mkNM (pgRun4 t).1 (pgRun4 t).2).2 from rfl,
      o5 .ph (by decide)]
    rw [show (pgRun4 t).2 = (stageRun phoneMatcher mkPH (pgRun3 t).1 (pgRun3 t).2).2 from rfl,
      n4, hph4]
    omega
  rw [hssn2] at k2
  rw [hem3] at k3
  rw [hph4] at k4
  exact ⟨e1, e2, e3, e4, e5 ++ e6 ++ e7 ++ e8, hmap, k1, k2, k3, k4, knm, hphN⟩

/-! ### The phone scan's skip decision (claims C3 and C10). -/

/-- Pair each chunk of a trace with the input-text prefix before it (the
`text[:match.start()]` that the phone callback inspects). -/
def chunksWithPre (pre : Str) : List Chunk → List (Str × Chunk)
  | [] => []
  | c :: cs => (pre, c) :: chunksWithPre (pre ++ chunkIn c) cs

theorem scanAux_phone_decision :
    ∀ (fuel : Nat) (prev : Option Char) (pre s : Str) (st : PGState),
      ∀ pc ∈ chunksWithPre pre (scanAux phoneMatcher mkPH fuel prev pre s st).1,
        (∀ kp o, pc.2 = Chunk.skipm kp o → occursIn ssnTag pc.1 = true) ∧
        (∀ kp key o, pc.2 = Chunk.rep kp key o → occursIn ssnTag pc.1 = false) := by
  intro fuel
  induction fuel with
  | zero =>
    intro prev pre s st pc hpc
    rw [scanAux_zero] at hpc
    by_cases hs : s.isEmpty
    · simp [hs, chunksWithPre] at hpc
    · simp only [hs, if_neg, chunksWithPre, List.mem_singleton, if_false] at hpc
      subst hpc
      constructor
      · intro kp o h
        simp at h
      · intro kp key o h
        simp at h
  | succ fuel ih =>
    intro prev pre s st pc hpc
    cases s with
    | nil =>
      rw [scanAux_nil] at hpc
      simp [chunksWithPre] at hpc
    | cons ch s' =>
      cases hm : phoneMatcher prev (ch :: s') with
      | none =>
        rw [scanAux_lit mkPH hm] at hpc
        simp only [chunksWithPre, List.mem_cons] at hpc
        rcases hpc with rfl | hpc
        · exact ⟨fun kp o h => by simp at h, fun kp key o h => by simp at h⟩
        · exact ih (some ch) (pre ++ [ch]) s' st pc (by simpa [chunkIn] using hpc)
      | some triple =>
        obtain ⟨kp, stored, rest⟩ := triple
        by_cases hg : occursIn ssnTag pre = true
        · have hmk : mkPH st pre stored = (none, st) := by
            simp [mkPH, hg]
          rw [scanAux_skip hm hmk] at hpc
          simp only [chunksWithPre, List.mem_cons] at hpc
          rcases hpc with rfl | hpc
          · refine ⟨fun kp' o' h => hg, fun kp' key' o' h => by simp at h⟩
          · exact ih ((kp ++ stored).getLast? <|> some ch) (pre ++ (kp ++ stored)) rest st pc
              (by simpa [chunkIn] using hpc)
        · have hgf : occursIn ssnTag pre = false := by
            simpa using hg
          have hmk : mkPH st pre stored =
              (some (mkKey phCat (st.phN + 1)),
               { st with phN := st.phN + 1,
                         mapping := st.mapping ++ [(mkKey phCat (st.phN + 1), stored)] }) := by
            simp [mkPH, hg]
          rw [scanAux_rep hm hmk] at hpc
          simp only [chunksWithPre, List.mem_cons] at hpc
          rcases hpc with rfl | hpc
          · refine ⟨fun kp' o' h => by simp at h, fun kp' key' o' h => hgf⟩
          · exact ih ((kp ++ stored).getLast? <|> some ch) (pre ++ (kp ++ stored)) rest _ pc
              (by simpa [chunkIn] using hpc)

/-- C3: during the phone scan, a matched span is skipped (traced as a
`skipm` chunk, whose output equals its input) exactly when the literal
`[SSN_` occurs in the scan input before the match start, and is replaced by a
phone placeholder (a `rep` chunk) otherwise. -/
theorem c3_phone_ssn_heuristic :
    (∀ (t : Str) (st : PGState),
      ∀ pc ∈ chunksWithPre [] (runScan phoneMatcher mkPH t st).1,
        (∀ kp o, pc.2 = Chunk.skipm kp o → occursIn ssnTag pc.1 = true) ∧
        (∀ kp key o, pc.2 = Chunk.rep kp key o → occursIn ssnTag pc.1 = false)) ∧
    (∀ kp o, chunkOut (Chunk.skipm kp o) = chunkIn (Chunk.skipm kp o)) :=
  ⟨fun t st => scanAux_phone_decision (t.length + 1) none [] t st, fun _ _ => rfl⟩

/-- The text used for the C3 witness: its phone scan replaces the first phone
number and skips the second one, which follows the `[SSN_1]` placeholder. -/
def c3Text : Str := "call 555-123-4567, [SSN_1] then 555-987-6543".toList

set_option maxHeartbeats 1600000 in
/-- C3 witness: on `c3Text` the scan's trace contains a replaced match with no
`[SSN_` before it and a skipped match with `[SSN_` before it, and the theorem
instantiates to both. -/
theorem c3_witness :
    (("call ".toList, Chunk.rep [] (mkKey phCat 1) ("555-123-4567".toList)) ∈
        chunksWithPre [] (runScan phoneMatcher mkPH c3Text pgInit).1 ∧
      occursIn ssnTag ("call ".toList) = false) ∧
    (("call 555-123-4567, [SSN_1] then ".toList,
        Chunk.skipm [] ("555-987-6543".toList)) ∈
        chunksWithPre [] (runScan phoneMatcher mkPH c3Text pgInit).1 ∧
      occursIn ssnTag ("call 555-123-4567, [SSN_1] then ".toList) = true) :=
  ⟨⟨by decide,
    (c3_phone_ssn_heuristic.1 c3Text pgInit
        (("call ".toList, Chunk.rep [] (mkKey phCat 1) ("555-123-4567".toList)))
        (by decide)).2 [] (mkKey phCat 1) ("555-123-4567".toList) rfl⟩,
   ⟨by decide,
    (c3_phone_ssn_heuristic.1 c3Text pgInit
        (("call 555-123-4567, [SSN_1] then ".toList,
          Chunk.skipm [] ("555-987-6543".toList)))
        (by decide)).1 [] ("555-987-6543".toList) rfl⟩⟩

/-- C10: a phone match skipped by the SSN heuristic changes neither the
mapping nor the phone counter (the callback returns the state unchanged, and
the scan's recorded entries come only from replaced matches), so the phone
placeholders of one mask call are numbered consecutively from 1. -/
theorem c10_phone_skip_frame :
    (∀ (st : PGState) (pre stored : Str), occursIn ssnTag pre = true →
        mkPH st pre stored = (none, st)) ∧
    (∀ (t : Str) (st : PGState),
        (runScan phoneMatcher mkPH t st).2.mapping =
          st.mapping ++ repsOf (runScan phoneMatcher mkPH t st).1 ∧
        (runScan phoneMatcher mkPH t st).2.phN =
          st.phN + (repsOf (runScan phoneMatcher mkPH t st).1).length) ∧
    (∀ (st0 : PGState) (t : Str), ∃ ecc essn eem eph enm : List (Str × Str),
        (pgMask st0 t).2.1 = ecc ++ essn ++ eem ++ eph ++ enm ∧
        eph.map Prod.fst = (List.range eph.length).map (fun i => mkKey phCat (i + 1))) := by
  refine ⟨?_, ?_, ?_⟩
  · intro st pre stored h
    simp [mkPH, h]
  · intro t st
    obtain ⟨h1, h2, h3, h4⟩ :=
      scanAux_mkLike mkPH_like phoneMatcher (t.length + 1) none [] t st
    exact ⟨h1, h2⟩
  · intro st0 t
    obtain ⟨ecc, essn, eem, eph, enm, hmap, _, _, _, kph, _, _⟩ := pgMask_blocks st0 t
    refine ⟨ecc, essn, eem, eph, enm, hmap, ?_⟩
    rw [kph]
    refine List.map_congr_left ?_
    intro i _
    have harith : 0 + 1 + i = i + 1 := by omega
    rw [harith]

/-- C10 witness: the frame conjunct applied at a concrete state and prefix
containing `[SSN_`. -/
theorem c10_witness :
    occursIn ssnTag ("x [SSN_1] y".toList) = true ∧
    mkPH pgInit ("x [SSN_1] y".toList) ("555-123-4567".toList) = (none, pgInit) :=
  ⟨by decide,
   c10_phone_skip_frame.1 pgInit ("x [SSN_1] y".toList) ("555-123-4567".toList) (by decide)⟩

/-! ### Distinctness and shape of placeholder keys (claim C6). -/

theorem keysFrom_mem {cat : Str} {base : Nat} {l : List (Str × Str)}
    (h : KeysFrom cat base l) {p : Str × Str} (hp : p ∈ l) :
    ∃ n, base + 1 ≤ n ∧ p.1 = mkKey cat n := by
  have hmem : p.1 ∈ l.map Prod.fst := List.mem_map_of_mem Prod.fst hp
  rw [h] at hmem
  obtain ⟨i, hi, hkey⟩ := List.mem_map.mp hmem
  exact ⟨base + 1 + i, by omega, hkey.symm⟩

theorem keysFrom_nodup {cat : Str} {base : Nat} {l : List (Str × Str)}
    (h : KeysFrom cat base l) : (l.map Prod.fst).Nodup := by
  rw [h]
  refine List.Nodup.map_on ?_ (List.nodup_range _)
  intro x _ y _ hxy
  have := (mkKey_inj hxy).2
  omega

theorem keysFrom_disjoint {cat1 cat2 : Str} {base1 base2 : Nat}
    {l1 l2 : List (Str × Str)} (hne : cat1 ≠ cat2)
    (h1 : KeysFrom cat1 base1 l1) (h2 : KeysFrom cat2 base2 l2) :
    List.Disjoint (l1.map Prod.fst) (l2.map Prod.fst) := by
  intro k hk1 hk2
  rw [h1] at hk1
  rw [h2] at hk2
  obtain ⟨i, _, hki⟩ := List.mem_map.mp hk1
  obtain ⟨j, _, hkj⟩ := List.mem_map.mp hk2
  exact hne (mkKey_inj (hki.trans hkj.symm)).1

theorem isDigit_not_space {c : Char} (h : c.isDigit = true) : spaceChar c = false := by
  cases hs : spaceChar c
  · rfl
  · exfalso
    simp only [spaceChar, Bool.or_eq_true, decide_eq_true_eq] at hs
    rcases hs with ((((h' | h') | h') | h') | h') | h' <;>
      (subst h'; exact absurd h (by decide))

theorem mkKey_no_space {cat : Str} (hcat : ∀ ch ∈ cat, spaceChar ch = false) (n : Nat) :
    ∀ ch ∈ mkKey cat n, spaceChar ch = false := by
  intro ch hch
  simp only [mkKey, List.mem_cons, List.mem_append, List.not_mem_nil, or_false] at hch
  rcases hch with rfl | hch | rfl | hch | rfl
  · rfl
  · exact hcat ch hch
  · rfl
  · exact isDigit_not_space (natStr_digits n ch hch)
  · rfl

/-- The eight category names the local gateway's system prompt instructs the
model to use as JSON keys. -/
def llmFixedCats : List Str :=
  ["credit_cards".toList, "ssn".toList, "emails".toList, "phones".toList,
   "names".toList, "addresses".toList, "dates_of_birth".toList,
   "account_numbers".toList]

theorem insertPair_fresh {β : Type} {m : List (Str × β)} {k : Str} (v : β)
    (h : ∀ q ∈ m, q.1 ≠ k) : insertPair m k v = m ++ [(k, v)] := by
  unfold insertPair
  rw [if_neg]
  intro hc
  obtain ⟨q, hq, hqk⟩ := List.any_eq_true.mp hc
  exact h q hq (of_decide_eq_true hqk)

theorem llmStep_fold (cat : Str) :
    ∀ (vals : List Str) (text : Str) (ctr : Nat) (mp : List (Str × Str)),
      (∀ n, ctr < n → ∀ q ∈ mp, q.1 ≠ mkKey (upperStr cat) n) →
      ∃ e : List (Str × Str),
        (vals.foldl (llmStep cat) (text, ctr, mp)).2.2 = mp ++ e ∧
        KeysFrom (upperStr cat) ctr e ∧
        (vals.foldl (llmStep cat) (text, ctr, mp)).2.1 = ctr + e.length := by
  intro vals
  induction vals with
  | nil =>
    intro text ctr mp _
    exact ⟨[], by simp, by simp [KeysFrom], by simp⟩
  | cons v vs ih =>
    intro text ctr mp hfr
    by_cases hc : v ≠ [] ∧ occursIn v (text, ctr, mp).1 = true
    · have hstep : llmStep cat (text, ctr, mp) v =
          (replaceAll v (mkKey (upperStr cat) (ctr + 1)) text, ctr + 1,
            insertPair mp (mkKey (upperStr cat) (ctr + 1)) v) := by
        simp only [llmStep]
        rw [if_pos hc]
      have hins : insertPair mp (mkKey (upperStr cat) (ctr + 1)) v =
          mp ++ [(mkKey (upperStr cat) (ctr + 1), v)] :=
        insertPair_fresh v (fun q hq => hfr (ctr + 1) (by omega) q hq)
      rw [List.foldl_cons, hstep, hins]
      have hfr2 : ∀ n, ctr + 1 < n →
          ∀ q ∈ mp ++ [(mkKey (upperStr cat) (ctr + 1), v)],
          q.1 ≠ mkKey (upperStr cat) n := by
        intro n hlt q hq heq
        rcases List.mem_append.mp hq with hq | hq
        · exact hfr n (by omega) q hq heq
        · rcases List.mem_singleton.mp hq with rfl
          have := (mkKey_inj heq).2
          omega
      obtain ⟨e, he, hk, hn⟩ := ih (replaceAll v (mkKey (upperStr cat) (ctr + 1)) text)
        (ctr + 1) (mp ++ [(mkKey (upperStr cat) (ctr + 1), v)]) hfr2
      refine ⟨(mkKey (upperStr cat) (ctr + 1), v) :: e, ?_, ?_, ?_⟩
      · rw [he, List.append_assoc, List.singleton_append]
      · have h1 : KeysFrom (upperStr cat) ctr [(mkKey (upperStr cat) (ctr + 1), v)] := by
          simp [KeysFrom, List.range_succ]
        have h2 : KeysFrom (upperStr cat)
            (ctr + [(mkKey (upperStr cat) (ctr + 1), v)].length) e := by
          simpa using hk
        exact keysFrom_append h1 h2
      · rw [hn]
        simp only [List.length_cons]
        omega
    · have hstep : llmStep cat (text, ctr, mp) v = (text, ctr, mp) := by
        simp only [llmStep]
        rw [if_neg hc]
      rw [List.foldl_cons, hstep]
      exact ih text ctr mp hfr

theorem keys_nodup_append {mp e : List (Str × Str)} {cat : Str} {base : Nat}
    (hmp : (mp.map Prod.fst).Nodup) (he : KeysFrom cat base e)
    (hfr : ∀ n, ∀ q ∈ mp, q.1 ≠ mkKey cat n) :
    ((mp ++ e).map Prod.fst).Nodup := by
  rw [List.map_append]
  refine hmp.append (keysFrom_nodup he) ?_
  intro k hk1 hk2
  rw [he] at hk2
  obtain ⟨i, _, hki⟩ := List.mem_map.mp hk2
  obtain ⟨q, hq, hqk⟩ := List.mem_map.mp hk1
  exact hfr _ q hq (hqk.trans hki.symm)

theorem forall2_mem_right {α β : Type} {R : α → β → Prop} :
    ∀ {l1 : List α} {l2 : List β}, List.Forall₂ R l1 l2 → ∀ b ∈ l2, ∃ a ∈ l1, R a b := by
  intro l1 l2 h
  induction h with
  | nil => exact fun b hb => absurd hb (List.not_mem_nil b)
  | cons hR _ ih =>
    intro b hb
    rcases List.mem_cons.mp hb with rfl | hb
    · exact ⟨_, List.mem_cons_self _ _, hR⟩
    · obtain ⟨a, ha, hr⟩ := ih b hb
      exact ⟨a, List.mem_cons_of_mem _ ha, hr⟩

theorem llmCat_fold :
    ∀ (det : List (Str × List Str)) (text : Str) (mp : List (Str × Str)),
      (∀ e ∈ det, ∀ n, ∀ q ∈ mp, q.1 ≠ mkKey (upperStr e.1) n) →
      (det.map (fun e => upperStr e.1)).Nodup →
      (mp.map Prod.fst).Nodup →
      ∃ blocks : List (List (Str × Str)),
        List.Forall₂ (fun (e : Str × List Str) (b : List (Str × Str)) =>
          KeysFrom (upperStr e.1) 0 b) det blocks ∧
        (det.foldl llmCat (text, mp)).2 = mp ++ blocks.flatten ∧
        ((det.foldl llmCat (text, mp)).2.map Prod.fst).Nodup := by
  intro det
  induction det with
  | nil =>
    intro text mp _ _ hmp
    exact ⟨[], List.Forall₂.nil, by simp, by simpa using hmp⟩
  | cons e es ih =>
    intro text mp hfr hup hmp
    simp only [List.map_cons, List.nodup_cons] at hup
    by_cases hemp : e.2.isEmpty = true
    · have hstep : llmCat (text, mp) e = (text, mp) := by
        simp only [llmCat]
        rw [if_pos hemp]
      rw [List.foldl_cons, hstep]
      obtain ⟨bs, hf, hflat, hnd⟩ :=
        ih text mp (fun e' he' => hfr e' (List.mem_cons_of_mem _ he')) hup.2 hmp
      refine ⟨[] :: bs, List.Forall₂.cons (by simp [KeysFrom]) hf, ?_, hnd⟩
      rw [hflat, List.flatten_cons, List.nil_append]
    · obtain ⟨b, hb, hkb, _⟩ := llmStep_fold e.1 e.2 text 0 mp
        (fun n _ q hq => hfr e (List.mem_cons_self _ _) n q hq)
      have hstep : llmCat (text, mp) e =
          ((e.2.foldl (llmStep e.1) (text, 0, mp)).1,
           (e.2.foldl (llmStep e.1) (text, 0, mp)).2.2) := by
        simp only [llmCat]
        rw [if_neg hemp]
      rw [List.foldl_cons, hstep, hb]
      have hfr2 : ∀ e' ∈ es, ∀ n, ∀ q ∈ mp ++ b, q.1 ≠ mkKey (upperStr e'.1) n := by
        intro e' he' n q hq heq
        rcases List.mem_append.mp hq with hq | hq
        · exact hfr e' (List.mem_cons_of_mem _ he') n q hq heq
        · obtain ⟨j, _, hjk⟩ := keysFrom_mem hkb hq
          have hcat : upperStr e.1 = upperStr e'.1 := (mkKey_inj (hjk.symm.trans heq)).1
          have hmem : upperStr e'.1 ∈ es.map (fun x => upperStr x.1) :=
            List.mem_map_of_mem _ he'
          rw [hcat] at hup
          exact hup.1 hmem
      have hnd2 : ((mp ++ b).map Prod.fst).Nodup :=
        keys_nodup_append hmp hkb
          (fun n q hq => hfr e (List.mem_cons_self _ _) n q hq)
      obtain ⟨bs, hf, hflat, hnd⟩ :=
        ih (e.2.foldl (llmStep e.1) (text, 0, mp)).1 (mp ++ b) hfr2 hup.2 hnd2
      refine ⟨b :: bs, List.Forall₂.cons hkb hf, ?_, hnd⟩
      rw [hflat, List.flatten_cons, List.append_assoc]

theorem pg_keys_nodup (st0 : PGState) (t : Str) :
    ((pgMask st0 t).2.1.map Prod.fst).Nodup := by
  obtain ⟨e1, e2, e3, e4, e5, hmap, k1, k2, k3, k4, k5, -⟩ := pgMask_blocks st0 t
  rw [hmap]
  simp only [List.map_append]
  rw [List.append_assoc, List.append_assoc, List.append_assoc]
  refine (keysFrom_nodup k1).append ?_ ?_
  · refine (keysFrom_nodup k2).append ?_ ?_
    · refine (keysFrom_nodup k3).append ?_ ?_
      · refine (keysFrom_nodup k4).append (keysFrom_nodup k5)
          (keysFrom_disjoint (by decide) k4 k5)
      · rw [List.disjoint_append_right]
        exact ⟨keysFrom_disjoint (by decide) k3 k4, keysFrom_disjoint (by decide) k3 k5⟩
    · rw [List.disjoint_append_right, List.disjoint_append_right]
      exact ⟨keysFrom_disjoint (by decide) k2 k3,
        keysFrom_disjoint (by decide) k2 k4, keysFrom_disjoint (by decide) k2 k5⟩
  · rw [List.disjoint_append_right, List.disjoint_append_right,
      List.disjoint_append_right]
    exact ⟨keysFrom_disjoint (by decide) k1 k2, keysFrom_disjoint (by decide) k1 k3,
      keysFrom_disjoint (by decide) k1 k4, keysFrom_disjoint (by decide) k1 k5⟩

theorem llmFixedCats_upper_inj :
    ∀ c1 ∈ llmFixedCats, ∀ c2 ∈ llmFixedCats, upperStr c1 = upperStr c2 → c1 = c2 := by
  decide

theorem llmFixedCats_upper_no_space :
    ∀ c ∈ llmFixedCats, ∀ ch ∈ upperStr c, spaceChar ch = false := by
  decide

def c6T : Str := "my SSN is 123-45-6789".toList

def c6Det : List (Str × List Str) := [("names".toList, ["Ann".toList])]

def c6U : Str := "Ann called".toList

/-- C6: within one `mask` call of either gateway, the placeholder keys of the
returned mapping are pairwise distinct, each key has the exact shape
`[` ++ uppercased category name ++ `_` ++ decimal counter ++ `]` with a
counter at least 1 and no internal whitespace, and per category the counters
form the consecutive block 1, 2, ... in recording order.  For the local LLM
gateway this is stated for detection results whose category names come from
the fixed list of the system prompt, without repetition (as the keys of a
JSON object are). -/
theorem c6_placeholder_keys (st0 : PGState) (t : Str)
    (det : List (Str × List Str)) (u : Str)
    (hvalid : ∀ e ∈ det, e.1 ∈ llmFixedCats)
    (hnodup : (det.map Prod.fst).Nodup) :
    (((pgMask st0 t).2.1.map Prod.fst).Nodup ∧
      (∀ p ∈ (pgMask st0 t).2.1, ∃ c : PCat, ∃ n, 1 ≤ n ∧
        p.1 = mkKey (catName c) n ∧ ∀ ch ∈ p.1, spaceChar ch = false) ∧
      (∃ ecc essn eem eph enm : List (Str × Str),
        (pgMask st0 t).2.1 = ecc ++ essn ++ eem ++ eph ++ enm ∧
        KeysFrom ccCat 0 ecc ∧ KeysFrom ssnCat 0 essn ∧ KeysFrom emCat 0 eem ∧
        KeysFrom phCat 0 eph ∧ KeysFrom nmCat 0 enm)) ∧
    (((llmMask [] det u).2.map Prod.fst).Nodup ∧
      (∀ p ∈ (llmMask [] det u).2, ∃ cat ∈ llmFixedCats, ∃ n, 1 ≤ n ∧
        p.1 = mkKey (upperStr cat) n ∧ ∀ ch ∈ p.1, spaceChar ch = false) ∧
      (∃ blocks : List (List (Str × Str)),
        List.Forall₂ (fun (e : Str × List Str) (b : List (Str × Str)) =>
          KeysFrom (upperStr e.1) 0 b) det blocks ∧
        (llmMask [] det u).2 = blocks.flatten)) := by
  have hupn : (det.map fun e => upperStr e.1).Nodup := by
    have hmm : det.map (fun e => upperStr e.1) = (det.map Prod.fst).map upperStr := by
      rw [List.map_map]; rfl
    rw [hmm]
    refine List.Nodup.map_on ?_ hnodup
    intro x hx y hy hxy
    obtain ⟨ex, hex, rfl⟩ := List.mem_map.mp hx
    obtain ⟨ey, hey, rfl⟩ := List.mem_map.mp hy
    exact llmFixedCats_upper_inj _ (hvalid ex hex) _ (hvalid ey hey) hxy
  obtain ⟨blocks, hf, hflat, hnd⟩ := llmCat_fold det u []
    (fun e _ n q hq => absurd hq (List.not_mem_nil q)) hupn (by simp)
  have hllm : llmMask [] det u = det.foldl llmCat (u, []) := rfl
  have hflat2 : (llmMask [] det u).2 = blocks.flatten := by
    rw [hllm, hflat, List.nil_append]
  refine ⟨⟨pg_keys_nodup st0 t, ?_, ?_⟩, ?_, ?_, ⟨blocks, hf, hflat2⟩⟩
  · intro p hp
    obtain ⟨e1, e2, e3, e4, e5, hmap, k1, k2, k3, k4, k5, -⟩ := pgMask_blocks st0 t
    rw [hmap] at hp
    simp only [List.mem_append] at hp
    rcases hp with (((hp | hp) | hp) | hp) | hp
    · obtain ⟨n, hn, hk⟩ := keysFrom_mem k1 hp
      exact ⟨PCat.cc, n, by omega, hk, by rw [hk]; exact mkKey_no_space (by decide) n⟩
    · obtain ⟨n, hn, hk⟩ := keysFrom_mem k2 hp
      exact ⟨PCat.ssn, n, by omega, hk, by rw [hk]; exact mkKey_no_space (by decide) n⟩
    · obtain ⟨n, hn, hk⟩ := keysFrom_mem k3 hp
      exact ⟨PCat.em, n, by omega, hk, by rw [hk]; exact mkKey_no_space (by decide) n⟩
    · obtain ⟨n, hn, hk⟩ := keysFrom_mem k4 hp
      exact ⟨PCat.ph, n, by omega, hk, by rw [hk]; exact mkKey_no_space (by decide) n⟩
    · obtain ⟨n, hn, hk⟩ := keysFrom_mem k5 hp
      exact ⟨PCat.nm, n, by omega, hk, by rw [hk]; exact mkKey_no_space (by decide) n⟩
  · obtain ⟨e1, e2, e3, e4, e5, hmap, k1, k2, k3, k4, k5, -⟩ := pgMask_blocks st0 t
    exact ⟨e1, e2, e3, e4, e5, hmap, k1, k2, k3, k4, k5⟩
  · exact hnd
  · intro p hp
    rw [hflat2] at hp
    obtain ⟨b, hbmem, hpb⟩ := List.mem_flatten.mp hp
    obtain ⟨e, he, hR⟩ := forall2_mem_right hf b hbmem
    obtain ⟨n, hn, hk⟩ := keysFrom_mem hR hpb
    exact ⟨e.1, hvalid e he, n, by omega, hk,
      by rw [hk]; exact mkKey_no_space (llmFixedCats_upper_no_space e.1 (hvalid e he)) n⟩

theorem c6_witness :
    (∀ e ∈ c6Det, e.1 ∈ llmFixedCats) ∧ (c6Det.map Prod.fst).Nodup ∧
    ((((pgMask pgInit c6T).2.1.map Prod.fst).Nodup ∧
      (∀ p ∈ (pgMask pgInit c6T).2.1, ∃ c : PCat, ∃ n, 1 ≤ n ∧
        p.1 = mkKey (catName c) n ∧ ∀ ch ∈ p.1, spaceChar ch = false) ∧
      (∃ ecc essn eem eph enm : List (Str × Str),
        (pgMask pgInit c6T).2.1 = ecc ++ essn ++ eem ++ eph ++ enm ∧
        KeysFrom ccCat 0 ecc ∧ KeysFrom ssnCat 0 essn ∧ KeysFrom emCat 0 eem ∧
        KeysFrom phCat 0 eph ∧ KeysFrom nmCat 0 enm)) ∧
    (((llmMask [] c6Det c6U).2.map Prod.fst).Nodup ∧
      (∀ p ∈ (llmMask [] c6Det c6U).2, ∃ cat ∈ llmFixedCats, ∃ n, 1 ≤ n ∧
        p.1 = mkKey (upperStr cat) n ∧ ∀ ch ∈ p.1, spaceChar ch = false) ∧
      (∃ blocks : List (List (Str × Str)),
        List.Forall₂ (fun (e : Str × List Str) (b : List (Str × Str)) =>
          KeysFrom (upperStr e.1) 0 b) c6Det blocks ∧
        (llmMask [] c6Det c6U).2 = blocks.flatten))) :=
  ⟨by decide, by decide,
    c6_placeholder_keys pgInit c6T c6Det c6U (by decide) (by decide)⟩

/-! ### Exhaustiveness and order (in)dependence of `unmask` (claim C8). -/

/-- Join a list of segments with a separator (`sep.join`-style). -/
def joinSep (sep : Str) : List Str → Str
  | [] => []
  | [s] => s
  | s :: s2 :: rest => s ++ sep ++ joinSep sep (s2 :: rest)

theorem joinSep_one (sep s : Str) : joinSep sep [s] = s := rfl

theorem joinSep_cons2 (sep s s2 : Str) (rest : List Str) :
    joinSep sep (s :: s2 :: rest) = s ++ sep ++ joinSep sep (s2 :: rest) := rfl

theorem replaceAll_decomp (k v : Str) (hk : k ≠ []) :
    ∀ t : Str, ∃ segs : List Str, segs ≠ [] ∧
      t = joinSep k segs ∧ replaceAll k v t = joinSep v segs ∧
      ∀ s ∈ segs, occursIn k s = false := by
  have hkE : k.isEmpty = false := by
    cases k with
    | nil => exact absurd rfl hk
    | cons a ks => rfl
  have main : ∀ n, ∀ t : Str, t.length ≤ n → ∃ segs : List Str, segs ≠ [] ∧
      t = joinSep k segs ∧ replaceAll k v t = joinSep v segs ∧
      ∀ s ∈ segs, occursIn k s = false := by
    intro n
    induction n with
    | zero =>
      intro t ht
      have : t = [] := List.eq_nil_of_length_eq_zero (Nat.le_zero.mp ht)
      subst this
      refine ⟨[[]], by simp, rfl, rfl, ?_⟩
      intro s hsm
      rcases List.mem_singleton.mp hsm with rfl
      simpa [occursIn] using hkE
    | succ n ih =>
      intro t ht
      cases t with
      | nil =>
        refine ⟨[[]], by simp, rfl, rfl, ?_⟩
        intro s hsm
        rcases List.mem_singleton.mp hsm with rfl
        simpa [occursIn] using hkE
      | cons c ts =>
        simp only [List.length_cons] at ht
        by_cases hs : startsWithStr k (c :: ts) = true
        · obtain ⟨u, hu⟩ := (startsWithStr_iff_append k (c :: ts)).mp hs
          have hklen : 1 ≤ k.length := by
            cases k with
            | nil => exact absurd rfl hk
            | cons a ks => simp
          have hulen : u.length ≤ n := by
            have := congrArg List.length hu
            simp only [List.length_cons, List.length_append] at this
            omega
          obtain ⟨segs, hne, hjoin, hrep, hnok⟩ := ih u hulen
          cases segs with
          | nil => exact absurd rfl hne
          | cons s0 rest =>
            refine ⟨[] :: s0 :: rest, by simp, ?_, ?_, ?_⟩
            · rw [joinSep_cons2, List.nil_append, ← hjoin, ← hu]
            · rw [replaceAll_cons, if_pos (by rw [hs, hkE]; rfl), joinSep_cons2,
                List.nil_append, ← hrep]
              congr 2
              rw [hu, List.drop_left]
            · intro s hsm
              rcases List.mem_cons.mp hsm with rfl | hsm
              · simpa [occursIn] using hkE
              · exact hnok s hsm
        · obtain ⟨segs, hne, hjoin, hrep, hnok⟩ := ih ts (by omega)
          cases segs with
          | nil => exact absurd rfl hne
          | cons s0 rest =>
            have hneg : ¬(startsWithStr k (c :: ts) && !k.isEmpty) = true := by
              simp only [Bool.and_eq_true]
              exact fun h => hs h.1
            refine ⟨(c :: s0) :: rest, by simp, ?_, ?_, ?_⟩
            · cases rest with
              | nil =>
                rw [joinSep_one] at hjoin ⊢
                rw [hjoin]
              | cons s2 r2 =>
                rw [joinSep_cons2] at hjoin ⊢
                rw [hjoin]
                simp
            · rw [replaceAll_cons, if_neg hneg]
              cases rest with
              | nil =>
                rw [joinSep_one] at hrep ⊢
                rw [hrep]
              | cons s2 r2 =>
                rw [joinSep_cons2] at hrep ⊢
                rw [hrep]
                simp
            · intro s hsm
              rcases List.mem_cons.mp hsm with rfl | hsm
              · have hts : ∃ z, ts = s0 ++ z := by
                  cases rest with
                  | nil =>
                    rw [joinSep_one] at hjoin
                    exact ⟨[], by rw [hjoin, List.append_nil]⟩
                  | cons s2 r2 =>
                    rw [joinSep_cons2] at hjoin
                    exact ⟨k ++ joinSep k (s2 :: r2), by rw [hjoin]; simp⟩
                show (startsWithStr k (c :: s0) || occursIn k s0) = false
                rw [hnok s0 (List.mem_cons_self _ _), Bool.or_false]
                cases hsw : startsWithStr k (c :: s0) with
                | false => rfl
                | true =>
                  exfalso
                  obtain ⟨w, hw⟩ := (startsWithStr_iff_append k (c :: s0)).mp hsw
                  obtain ⟨z, hz⟩ := hts
                  have hct : c :: ts = k ++ (w ++ z) := by
                    rw [hz, ← List.append_assoc, ← hw]
                    rfl
                  exact hs ((startsWithStr_iff_append k (c :: ts)).mpr ⟨w ++ z, hct⟩)
              · exact hnok s (List.mem_cons_of_mem _ hsm)
  exact fun t => main t.length t (Nat.le_refl _)

theorem replaceAll_single (a b : Char) :
    ∀ t : Str, replaceAll [a] [b] t = t.map (fun c => if c = a then b else c) := by
  intro t
  induction t with
  | nil => rfl
  | cons c ts ih =>
    rw [replaceAll_cons]
    by_cases hc : c = a
    · subst hc
      rw [if_pos (by simp [startsWithStr])]
      have hdrop : (c :: ts).drop [c].length = ts := by simp
      rw [hdrop, ih]
      simp
    · rw [if_neg (by simp [startsWithStr]; exact fun h => hc h.symm)]
      rw [ih]
      simp [hc]

theorem replaceAll_single_comm (a b c d : Char) (h1 : a ≠ c) (h2 : a ≠ d) (h3 : c ≠ b) :
    ∀ s : Str, replaceAll [c] [d] (replaceAll [a] [b] s) =
      replaceAll [a] [b] (replaceAll [c] [d] s) := by
  intro s
  rw [replaceAll_single, replaceAll_single, replaceAll_single, replaceAll_single,
    List.map_map, List.map_map]
  refine List.map_congr_left ?_
  intro x _
  simp only [Function.comp_apply]
  by_cases hxa : x = a
  · subst hxa
    simp [h1, Ne.symm h3]
  · by_cases hxc : x = c
    · subst hxc
      simp [Ne.symm h1, Ne.symm h2]
    · simp [hxa, hxc]

def c8M1 : List (Str × Str) := [(['a'], ['b']), (['c'], ['d'])]

def c8M2 : List (Str × Str) := [(['c'], ['d']), (['a'], ['b'])]

def c8T2 : Str := "a c a".toList

/-- C8 (amended): `unmask` folds `str.replace` over the mapping entries.
Each single replacement is exhaustive: for a non-empty key `k` the text
splits into segments free of `k` joined by `k`, and the replacement joins
the same segments by `v` (every left-to-right occurrence is replaced, not
just the first).  The order of application, however, is only immaterial
when the entries' replacements pairwise commute: key uniqueness alone does
not guarantee this (see the recorded counterexample), but under the
pairwise-commutation hypothesis any iteration order of the mapping yields
the same final text. -/
theorem c8_amended (k v t : Str) (hk : k ≠ [])
    (m1 m2 : List (Str × Str)) (hperm : m1.Perm m2)
    (hcomm : ∀ p ∈ m1, ∀ q ∈ m1, ∀ s : Str,
      replaceAll q.1 q.2 (replaceAll p.1 p.2 s) =
        replaceAll p.1 p.2 (replaceAll q.1 q.2 s)) :
    (∃ segs : List Str, segs ≠ [] ∧ t = joinSep k segs ∧
      replaceAll k v t = joinSep v segs ∧ ∀ s ∈ segs, occursIn k s = false) ∧
    unmaskSub m1 t = unmaskSub m2 t := by
  refine ⟨replaceAll_decomp k v hk t, ?_⟩
  exact hperm.foldl_eq' (fun x hx y hy z => hcomm x hx y hy z) t

theorem c8_amended_witness :
    ['a'] ≠ ([] : Str) ∧ c8M1.Perm c8M2 ∧
    ((∃ segs : List Str, segs ≠ [] ∧ c8T2 = joinSep ['a'] segs ∧
      replaceAll ['a'] ['y'] c8T2 = joinSep ['y'] segs ∧
      ∀ s ∈ segs, occursIn ['a'] s = false) ∧
    unmaskSub c8M1 c8T2 = unmaskSub c8M2 c8T2) := by
  have hperm : c8M1.Perm c8M2 := List.Perm.swap _ _ _
  have hcomm : ∀ p ∈ c8M1, ∀ q ∈ c8M1, ∀ s : Str,
      replaceAll q.1 q.2 (replaceAll p.1 p.2 s) =
        replaceAll p.1 p.2 (replaceAll q.1 q.2 s) := by
    intro p hp q hq s
    rcases List.mem_cons.mp hp with rfl | hp
    · rcases List.mem_cons.mp hq with rfl | hq
      · rfl
      · rcases List.mem_singleton.mp hq with rfl
        exact replaceAll_single_comm 'a' 'b' 'c' 'd' (by decide) (by decide) (by decide) s
    · rcases List.mem_singleton.mp hp with rfl
      rcases List.mem_cons.mp hq with rfl | hq
      · exact replaceAll_single_comm 'c' 'd' 'a' 'b' (by decide) (by decide) (by decide) s
      · rcases List.mem_singleton.mp hq with rfl
        rfl
  exact ⟨by decide, hperm,
    c8_amended ['a'] ['y'] c8T2 (by decide) c8M1 c8M2 hperm hcomm⟩
